import Mathlib

/-!
Verification of the rdsys backend resource model: hashring, partition
stencil, partitioned hashrings, resource diffs and the onbasca
bandwidth-test write-back.  Every definition is a shallow embedding of
the corresponding Go function; machine integers are modelled as `Nat`
or `Int` with explicit wrap-around where the Go code can overflow, and
fallible or panicking code returns `Option`/`Bool` error flags.
-/

/-! ## Core data model (pkg/core/domain.go) -/

/-- Resource test states (`StateUntested`, `StateFunctional`,
`StateDysfunctional`). -/
def StateUntested : Nat := 0

/-- `StateFunctional` constant. -/
def StateFunctional : Nat := 1

/-- `StateDysfunctional` constant. -/
def StateDysfunctional : Nat := 2

/-- Resource speed states (`SpeedUntested`, `SpeedAccepted`,
`SpeedRejected`). -/
def SpeedUntested : Nat := 0

/-- `SpeedAccepted` constant. -/
def SpeedAccepted : Nat := 1

/-- `SpeedRejected` constant. -/
def SpeedRejected : Nat := 2

/-- Resource events returned by `AddOrUpdate` and propagated by the
backend (`ResourceUnchanged`, `ResourceIsNew`, `ResourceChanged`,
`ResourceIsGone`). -/
def ResourceUnchanged : Nat := 0

/-- `ResourceIsNew` event constant. -/
def ResourceIsNew : Nat := 1

/-- `ResourceChanged` event constant. -/
def ResourceChanged : Nat := 2

/-- `ResourceIsGone` event constant. -/
def ResourceIsGone : Nat := 3

/-- `core.ResourceTest`: state, speed, optional bandwidth ratio
(`*float64`, modelled as `Option ℚ`), timestamps and error string.
Times are modelled as integers. -/
structure ResourceTest where
  state : Nat
  speed : Nat
  ratio : Option ℚ
  lastTested : Int
  lastPassed : Int
  error : String
deriving DecidableEq, Repr

instance : Inhabited ResourceTest := ⟨⟨0, 0, none, 0, 0, ""⟩⟩

/-- The `core.Resource` interface data relevant to the verified code:
type name, unique id (`Uid`), object id (`Oid`), relation identifiers,
declared distributor, expiry duration and the attached test result. -/
structure Resource where
  rtype : String
  uid : Nat
  oid : Nat
  relationIds : List String
  distributor : String
  expiry : Int
  test : ResourceTest
deriving DecidableEq, Repr

instance : Inhabited Resource := ⟨⟨"", 0, 0, [], "", 0, default⟩⟩

/-- A node of the hashring (`core.hashnode`): hash key, resource and
last-update timestamp. -/
structure Hashnode where
  hashkey : Nat
  elem : Resource
  lastUpdate : Int
deriving DecidableEq, Repr

instance : Inhabited Hashnode := ⟨⟨0, default, 0⟩⟩

/-! ## sort.Search (Go standard library binary search)

`Hashring.getIndex` calls `sort.Search`, whose loop is
`for i < j { h := (i+j)/2; if !pred(h) { i = h+1 } else { j = h } }`.
The loop is modelled with explicit fuel; `j - i` many steps always
suffice. -/

/-- Binary-search loop of Go's `sort.Search`, with fuel. -/
def goSearchLoop (pred : Nat → Bool) : Nat → Nat → Nat → Nat
  | 0, i, _ => i
  | fuel + 1, i, j =>
    if i < j then
      let h := (i + j) / 2
      if pred h then goSearchLoop pred fuel i h
      else goSearchLoop pred fuel (h + 1) j
    else i

/-- Go's `sort.Search n pred`: smallest index in `[0, n)` satisfying the
(monotone) predicate, or `n`. -/
def goSearch (n : Nat) (pred : Nat → Bool) : Nat :=
  goSearchLoop pred n 0 n

/-! ## Hashring (hashring.go) -/

/-- A hashring is its ordered node sequence. -/
def Hashring := List Hashnode

/-- Result of `Hashring.getIndex`: the index (Go `int`, may be `-1`)
and whether the key was found (`found = true` models `err == nil`). -/
structure IndexResult where
  idx : Int
  found : Bool
deriving DecidableEq, Repr

/-- `Hashring.getIndex`: binary-search for the given hash key.  On an
empty ring, `(-1, error)`.  Otherwise the smallest index whose key is
`≥ k`, wrapped to `0` when there is none; `found` iff the key at that
index is exactly `k`. -/
def Hashring.getIndex (nodes : List Hashnode) (k : Nat) : IndexResult :=
  if nodes.length = 0 then ⟨-1, false⟩
  else
    let i0 := goSearch nodes.length fun x => decide (k ≤ (nodes.getD x default).hashkey)
    let i := if nodes.length ≤ i0 then 0 else i0
    if i < nodes.length ∧ (nodes.getD i default).hashkey = k then ⟨i, true⟩
    else ⟨i, false⟩

/-- Index of the node holding uid `k`, when `getIndex` reports an exact
match (`err == nil` in the Go code). -/
def Hashring.findUid (nodes : List Hashnode) (k : Nat) : Option Nat :=
  let r := Hashring.getIndex nodes k
  if r.found then some r.idx.toNat else none

/-- Refresh the `lastUpdate` field of the node at index `i`
(`h.hashnodes[i].lastUpdate = time.Now().UTC()`). -/
def setLastUpdate (nodes : List Hashnode) (i : Nat) (now : Int) : List Hashnode :=
  nodes.set i { nodes.getD i default with lastUpdate := now }

/-- `sort.Sort(h)` on the node slice: sort ascending by hashkey. -/
def sortNodes (nodes : List Hashnode) : List Hashnode :=
  List.insertionSort (fun a b => a.hashkey ≤ b.hashkey) nodes

/-- `Hashring.Add`: if the uid is already present, refresh that node's
timestamp and return an "already present" error (second component
`true`); otherwise append a fresh node and sort.  (`maybeTestResource`
only schedules an asynchronous test and does not change the ring.) -/
def Hashring.Add (nodes : List Hashnode) (r : Resource) (now : Int) :
    List Hashnode × Bool :=
  match Hashring.findUid nodes r.uid with
  | some i => (setLastUpdate nodes i now, true)
  | none => (sortNodes (nodes ++ [⟨r.uid, r, now⟩]), false)

/-- `Hashring.AddOrUpdate`: returns the new ring, the event and the
(possibly mutated) argument resource.  A present uid refreshes the
timestamp, replaces the element iff the Oid changed, then upgrades the
event to `ResourceIsGone` when the stored test result is dysfunctional
or rejected, and otherwise stamps `lastPassed` on the argument when
functional and accepted (`r.SetLastPassed`; when the element was just
replaced the stored element is the same object as the argument). -/
def Hashring.AddOrUpdate (nodes : List Hashnode) (r : Resource) (now : Int) :
    List Hashnode × Nat × Resource :=
  match Hashring.findUid nodes r.uid with
  | some i =>
      let nodes1 := setLastUpdate nodes i now
      let replaced := (nodes1.getD i default).elem.oid ≠ r.oid
      let nodes2 :=
        if replaced then nodes1.set i { nodes1.getD i default with elem := r } else nodes1
      let event1 := if replaced then ResourceChanged else ResourceUnchanged
      let cur := (nodes2.getD i default).elem
      if cur.test.state = StateDysfunctional ∨ cur.test.speed = SpeedRejected then
        (nodes2, ResourceIsGone, r)
      else if cur.test.state = StateFunctional ∧ cur.test.speed = SpeedAccepted then
        let r1 : Resource := { r with test := { r.test with lastPassed := now } }
        (if replaced then nodes2.set i { nodes2.getD i default with elem := r1 } else nodes2,
         event1, r1)
      else
        (nodes2, event1, r)
  | none => (sortNodes (nodes ++ [⟨r.uid, r, now⟩]), ResourceIsNew, r)

/-- `Hashring.remove` (and `Remove`): drop the node with the resource's
uid; error flag `true` when the uid is absent or the ring is empty. -/
def Hashring.remove (nodes : List Hashnode) (r : Resource) : List Hashnode × Bool :=
  match Hashring.findUid nodes r.uid with
  | none => (nodes, true)
  | some i => (nodes.take i ++ nodes.drop (i + 1), false)

/-- `Hashring.GetMany`: `none` on an empty ring; otherwise walk `num`
positions forward (with wrap-around) from the index `getIndex`
returned.  `num` is clamped to the ring length first. -/
def Hashring.GetMany (nodes : List Hashnode) (k : Nat) (num : Int) :
    Option (List Resource) :=
  if nodes.length = 0 then none
  else
    let num1 : Int := if (nodes.length : Int) ≤ num then (nodes.length : Int) else num
    let res := Hashring.getIndex nodes k
    if ¬res.found ∧ res.idx = -1 then none
    else
      let i := res.idx.toNat
      some ((List.range num1.toNat).map fun j =>
        (nodes.getD ((i + j) % nodes.length) default).elem)

/-! ### Prune and the Go slice aliasing it exhibits

`Hashring.Prune` ranges over `h.hashnodes` while calling `h.remove`
inside the loop.  In Go the `range` expression captures the original
slice header (pointer and length) once, while `remove` shifts the
shared backing array left via `append(h.hashnodes[:i],
h.hashnodes[i+1:]...)`; the captured header then exposes one stale
trailing element per removal.  The model keeps the full backing array
(`backing`, whose length never changes) together with the current
logical length (`len`). -/

structure PruneSlice where
  backing : List Hashnode
  len : Nat
deriving DecidableEq, Repr

/-- One `h.remove(r)` during `Prune`: operates on the current slice
`backing.take len`; on success the tail of the backing array shifts
left by one and the element at position `len - 1` goes stale. -/
def pruneRemove (s : PruneSlice) (uid : Nat) : PruneSlice :=
  let cur := s.backing.take s.len
  match Hashring.findUid cur uid with
  | none => s
  | some i =>
      { backing := cur.take i ++ cur.drop (i + 1) ++ s.backing.drop (s.len - 1)
        len := s.len - 1 }

/-- `Hashring.Prune`: iterate the captured header of the original
length; prune every visited node whose `lastUpdate` is older than its
expiry, reading each position from the *current* backing array exactly
as the mutated Go slice does.  Returns the final ring and the pruned
resources. -/
def Hashring.Prune (nodes : List Hashnode) (now : Int) :
    List Hashnode × List Resource :=
  let n := nodes.length
  let final := (List.range n).foldl
    (fun (acc : PruneSlice × List Resource) j =>
      let s := acc.1
      let node := s.backing.getD j default
      if node.elem.expiry < now - node.lastUpdate then
        (pruneRemove s node.elem.uid, acc.2 ++ [node.elem])
      else acc)
    (⟨nodes, n⟩, [])
  (final.1.backing.take final.1.len, final.2)

/-! ## Go math/rand (used by stencil.GetPartitionName)

`stencil.GetPartitionName` calls `rand.Seed(int64(r.Uid()))` followed by
`rand.Intn(upperEnd + 1)`.  The generator behind `rand.Seed` is the Go-1
`rngSource`: an additive lagged Fibonacci generator over a 607-entry
vector of signed 64-bit words (modelled as `Nat` mod `2^64`), seeded
from a Lehmer chain.  The 607 hard-coded constants `rngCooked` are kept
abstract as a parameter `cooked : Nat → Nat`; every theorem below holds
for all values of that parameter, hence for the real constants. -/

/-- `int32max = 1<<31 - 1`, the Lehmer modulus. -/
def int32max : Nat := 2147483647

/-- `seedrand(x) = 48271*(x%44488) - 3399*(x/44488)` (plus `int32max`
when negative); the Schrage-style Lehmer step of `rngSource.Seed`. -/
def seedrand (x : Nat) : Nat :=
  let hi := x / 44488
  let lo := x % 44488
  let a := 48271 * lo
  let b := 3399 * hi
  if b ≤ a then a - b else a + int32max - b

/-- The seed normalisation at the top of `rngSource.Seed`:
`seed %= int32max` (truncated, Go semantics), add `int32max` when
negative, and replace `0` by `89482311`. -/
def seedReduce (seed : Int) : Nat :=
  let s := Int.tmod seed (int32max : Int)
  let s := if s < 0 then s + (int32max : Int) else s
  let s := if s = 0 then (89482311 : Int) else s
  s.toNat

/-- Go `int64(u)` of a `uint64` value: two's-complement reinterpretation. -/
def int64OfUid (u : Nat) : Int :=
  if u < 2 ^ 63 then (u : Int) else (u : Int) - 2 ^ 64

/-- State of `rngSource`: the 607-word vector and the two cursors. -/
structure RngState where
  vec : List Nat
  tap : Nat
  feed : Nat
deriving DecidableEq, Repr

/-- The vector-filling loop of `rngSource.Seed` for `i ≥ 0`: each entry
is built from three Lehmer steps, packed as
`x1<<40 ^ x2<<20 ^ x3 ^ rngCooked[i]` in wrapping 64-bit arithmetic. -/
def seedVecAux (cooked : Nat → Nat) : Nat → Nat → Nat → List Nat
  | _, _, 0 => []
  | x, i, k + 1 =>
    let x1 := seedrand x
    let x2 := seedrand x1
    let x3 := seedrand x2
    let u := (((x1 <<< 40) % 2 ^ 64) ^^^ ((x2 <<< 20) % 2 ^ 64) ^^^ x3 ^^^ cooked i) % 2 ^ 64
    u :: seedVecAux cooked x3 (i + 1) k

/-- `rngSource.Seed`: 20 warm-up Lehmer steps (`i = -20 … -1`), then the
607 vector entries; `tap = 0`, `feed = 607 - 273 = 334`. -/
def goRngSeed (cooked : Nat → Nat) (seed : Int) : RngState :=
  let xw := seedrand^[20] (seedReduce seed)
  { vec := seedVecAux cooked xw 0 607, tap := 0, feed := 334 }

/-- `rngSource.Uint64`: decrement both cursors mod 607, add the two
vector words mod `2^64`, store and return the sum. -/
def rngUint64 (s : RngState) : Nat × RngState :=
  let tap := if s.tap = 0 then 606 else s.tap - 1
  let feed := if s.feed = 0 then 606 else s.feed - 1
  let x := (s.vec.getD feed 0 + s.vec.getD tap 0) % 2 ^ 64
  (x, ⟨s.vec.set feed x, tap, feed⟩)

/-- `Int63` (`Uint64 & (1<<63 - 1)`) followed by `Int31`
(`int32(Int63() >> 32)`). -/
def rngInt31 (s : RngState) : Nat × RngState :=
  let p := rngUint64 s
  ((p.1 % 2 ^ 63) / 2 ^ 32, p.2)

/-- The retry loop of `Rand.Int31n` for a non-power-of-two bound, with
fuel; `none` models a run that has not terminated within the fuel. -/
def int31nLoop (n maxv : Nat) : RngState → Nat → Option Nat
  | _, 0 => none
  | s, fuel + 1 =>
    let p := rngInt31 s
    if maxv < p.1 then int31nLoop n maxv p.2 fuel else some (p.1 % n)

/-- `Rand.Int31n` (reached from `rand.Intn` for bounds below `1<<31`):
mask directly for powers of two, otherwise draw until at most
`1<<31 - 1 - (1<<31) % n` and reduce mod `n`. -/
def goInt31n (s : RngState) (n : Nat) (fuel : Nat) : Option Nat :=
  if n &&& (n - 1) = 0 then some ((rngInt31 s).1 &&& (n - 1))
  else int31nLoop n (2 ^ 31 - 1 - 2 ^ 31 % n) s fuel

/-- `rand.Seed(seed)` followed by `rand.Intn(n)` on the global
generator. -/
def goIntn (cooked : Nat → Nat) (seed : Int) (n : Nat) (fuel : Nat) : Option Nat :=
  goInt31n (goRngSeed cooked seed) n fuel

/-! ## Stencil (stencil.go) -/

/-- `interval{Begin, End, Name}` (the bounds are Go `int`s; `end` is a
Lean keyword, so the fields are `lo`/`hi`). -/
structure Intv where
  lo : Int
  hi : Int
  name : String
deriving DecidableEq, Repr

/-- A stencil is its interval chain. -/
def Stencil := List Intv

/-- Byte-wise lexicographic comparison of character lists, mirroring
Go's `sort.Strings` order (UTF-8 byte order coincides with code-point
order). -/
def charListLess : List Char → List Char → Bool
  | [], [] => false
  | [], _ :: _ => true
  | _ :: _, [] => false
  | c :: cs, d :: ds =>
    if c.val < d.val then true
    else if d.val < c.val then false
    else charListLess cs ds

/-- Strict lexicographic order on strings (Go byte order). -/
def goStringLess (a b : String) : Bool :=
  charListLess a.toList b.toList

/-- The interval-emitting loop of `buildStencil`: one interval
`[i, i + weight - 1]` per key, advancing the cursor by the weight. -/
def buildStencilAux (props : List (String × Nat)) : List String → Nat → List Intv
  | [], _ => []
  | k :: rest, i =>
    let w := (props.lookup k).getD 0
    ⟨(i : Int), (i : Int) + (w : Int) - 1, k⟩ :: buildStencilAux props rest (i + w)

/-- `buildStencil`: sort the proportion keys lexicographically and lay
out consecutive intervals `[i, i + weight - 1]` starting at `0`. -/
def buildStencil (props : List (String × Nat)) : List Intv :=
  buildStencilAux props
    (List.insertionSort (fun a b : String => goStringLess b a = false) (props.map Prod.fst)) 0

/-- `stencil.GetUpperEnd`: error on an empty stencil, otherwise the
maximum interval end, starting the fold from `0`. -/
def Stencil.GetUpperEnd (st : List Intv) : Option Int :=
  if st.isEmpty then none
  else some (st.foldl (fun m iv => if m < iv.hi then iv.hi else m) 0)

/-- `stencil.FindByValue`: the first interval containing `n`. -/
def Stencil.FindByValue (st : List Intv) (n : Int) : Option Intv :=
  st.find? fun iv => decide (iv.lo ≤ n) && decide (n ≤ iv.hi)

/-- `stencil.GetPartitionName`: seed the global PRNG with the uid, draw
`n = rand.Intn(upperEnd+1)` and return the name of the interval
containing `n`; the logged error paths return `""`.  `none` models a
non-terminating retry loop (never observed). -/
def Stencil.GetPartitionName (cooked : Nat → Nat) (fuel : Nat) (st : List Intv)
    (uid : Nat) : Option String :=
  match Stencil.GetUpperEnd st with
  | none => some ""
  | some ue =>
    match goIntn cooked (int64OfUid uid) (ue + 1).toNat fuel with
    | none => none
    | some n =>
      match Stencil.FindByValue st (n : Int) with
      | none => some ""
      | some iv => some iv.name

/-- Modelled from the spec (the formula of claim C1, for comparison
with the code): `get_partition_name(r) =
find_by_value(Uid(r) mod (upper_end+1)).name`. -/
def specStencilAssign (st : List Intv) (uid : Nat) : Option String :=
  match Stencil.GetUpperEnd st with
  | none => some ""
  | some ue =>
    match Stencil.FindByValue st ((uid : Int) % (ue + 1)) with
    | none => some ""
    | some iv => some iv.name

/-! ## Association-list primitive for Go maps -/

/-- Update of a Go map entry: replace the value at the key when
present, else append the binding. -/
def setAssoc {α : Type} : List (String × α) → String → α → List (String × α)
  | [], k, v => [(k, v)]
  | p :: rest, k, v => if p.1 = k then (k, v) :: rest else p :: setAssoc rest k v

/-! ## Partitioned hashrings (collection.go, domain.go)

`partitionedHashring` holds the per-partition rings, the relation
table and the stencil; `partitionedWithDistributors` (used by the
backend) adds the `"none"` partition, the declared-distributor
override, and skips relation recording for `"none"`. -/

structure PartitionedHashring where
  partitions : List (String × List Hashnode)
  relations : List (String × String)
  stencil : List Intv
deriving Repr

/-- `newPartitionedHashring(proportions)` wrapped by
`newPartitionedWithDistributors`: one empty ring per proportion key,
plus the reserved `"none"` ring; empty relation table; the stencil
built from the proportions. -/
def newPartitionedWD (props : List (String × Nat)) : PartitionedHashring :=
  { partitions := props.map (fun p => (p.1, ([] : List Hashnode))) ++ [("none", [])]
    relations := []
    stencil := buildStencil props }

/-- `partitionedHashring.getPartitionName`: scan the resource's
relation identifiers in order; every identifier related to an existing
partition overwrites the candidate (last match wins); fall back to the
stencil when no relation matched. -/
def phGetPartitionName (cooked : Nat → Nat) (fuel : Nat) (p : PartitionedHashring)
    (r : Resource) : Option String :=
  let nameAcc := r.relationIds.foldl
    (fun acc rid =>
      match p.relations.lookup rid with
      | some name => if (p.partitions.lookup name).isSome then name else acc
      | none => acc)
    ""
  if nameAcc = "" then Stencil.GetPartitionName cooked fuel p.stencil r.uid
  else some nameAcc

/-- `partitionedWithDistributors.getPartitionName`: a non-empty
declared distributor wins, rerouted to `"none"` when it names no
partition; otherwise delegate to the relation/stencil logic. -/
def wdGetPartitionName (cooked : Nat → Nat) (fuel : Nat) (p : PartitionedHashring)
    (r : Resource) : Option String :=
  if r.distributor ≠ "" then
    some (if (p.partitions.lookup r.distributor).isSome then r.distributor else "none")
  else phGetPartitionName cooked fuel p r

/-- `partitionedHashring.addRelationIdentifiers`: record every relation
identifier of the resource with the partition name. -/
def phAddRelationIdentifiers (p : PartitionedHashring) (r : Resource)
    (name : String) : PartitionedHashring :=
  { p with relations := r.relationIds.foldl (fun m rid => setAssoc m rid name) p.relations }

/-- `partitionedWithDistributors.addRelationIdentifiers`: as above but
a no-op for the `"none"` partition. -/
def wdAddRelationIdentifiers (p : PartitionedHashring) (r : Resource)
    (name : String) : PartitionedHashring :=
  if name = "none" then p else phAddRelationIdentifiers p r name

/-- `partitionedWithDistributors.Add`: select the partition, record the
relation identifiers, and add to the selected ring.  `none` models the
two panics a Go run can hit: a diverging stencil draw, or calling a
method on the `nil` hashring of an unknown partition name. -/
def wdAdd (cooked : Nat → Nat) (fuel : Nat) (p : PartitionedHashring) (r : Resource)
    (now : Int) : Option (PartitionedHashring × Bool) :=
  match wdGetPartitionName cooked fuel p r with
  | none => none
  | some name =>
    let p1 := wdAddRelationIdentifiers p r name
    match p1.partitions.lookup name with
    | none => none
    | some ring =>
      let res := Hashring.Add ring r now
      some ({ p1 with partitions := setAssoc p1.partitions name res.1 }, res.2)

/-- `partitionedWithDistributors.AddOrUpdate`: same partition selection
and relation recording, delegating to `Hashring.AddOrUpdate`. -/
def wdAddOrUpdate (cooked : Nat → Nat) (fuel : Nat) (p : PartitionedHashring)
    (r : Resource) (now : Int) : Option (PartitionedHashring × Nat) :=
  match wdGetPartitionName cooked fuel p r with
  | none => none
  | some name =>
    let p1 := wdAddRelationIdentifiers p r name
    match p1.partitions.lookup name with
    | none => none
    | some ring =>
      let res := Hashring.AddOrUpdate ring r now
      some ({ p1 with partitions := setAssoc p1.partitions name res.1 }, res.2.1)

/-! ## Resource maps and diffs (domain.go) -/

/-- `core.ResourceMap`: resource type name to resource queue. -/
abbrev RMap := List (String × List Resource)

/-- Go map read `m[rType]`: `nil` (empty) queue when absent. -/
def rget (m : RMap) (t : String) : List Resource :=
  (m.lookup t).getD []

/-- Go map write `m[rType] = q`. -/
def rset (m : RMap) (t : String) (q : List Resource) : RMap :=
  setAssoc m t q

/-- `ResourceQueue.Enqueue`: appends unless a resource with the same
uid is already queued (in which case it errors and leaves the queue
unchanged). -/
def enqueue (q : List Resource) (r : Resource) : List Resource :=
  if q.any (fun r2 => r2.uid = r.uid) then q else q ++ [r]

/-- `ResourceQueue.Update`: replace every entry with a matching uid. -/
def queueUpdate (q : List Resource) (r : Resource) : List Resource :=
  q.map (fun r2 => if r.uid = r2.uid then r else r2)

/-- `ResourceQueue.Delete`: drop every entry with a matching uid. -/
def queueDelete (q : List Resource) (r : Resource) : List Resource :=
  q.filter (fun r2 => decide (r.uid ≠ r2.uid))

/-- `core.ResourceDiff`. -/
structure ResourceDiff where
  new : RMap
  changed : RMap
  gone : RMap
  fullUpdate : Bool
deriving DecidableEq, Repr

/-- `ResourceMap.ApplyDiff`: on a full update, start from a fresh map
holding an empty queue for each type *currently present* in the
receiver; run the New/Changed/Gone phases on it; then copy back one
queue per *pre-existing* type.  Without a full update the phases run
directly on the receiver. -/
def RMap.ApplyDiff (m : RMap) (d : ResourceDiff) : RMap :=
  let resmap := if d.fullUpdate then m.map (fun p => (p.1, ([] : List Resource))) else m
  let resmap := d.new.foldl
    (fun acc p => p.2.foldl (fun a2 r => rset a2 p.1 (enqueue (rget a2 p.1) r)) acc) resmap
  let resmap := d.changed.foldl
    (fun acc p => p.2.foldl (fun a2 r => rset a2 p.1 (queueUpdate (rget a2 p.1) r)) acc) resmap
  let resmap := d.gone.foldl
    (fun acc p => p.2.foldl (fun a2 r => rset a2 p.1 (queueDelete (rget a2 p.1) r)) acc) resmap
  if d.fullUpdate then m.map (fun p => (p.1, rget resmap p.1)) else resmap

/-! ## Onbasca bandwidth write-back (internal/resourcetest.go) -/

/-- One entry of a bandwidth-test response (`internal.BridgeTest`):
`functional`, optional `last_tested`, nullable `ratio`, `error`. -/
structure BridgeTest where
  functional : Bool
  lastTested : Option Int
  ratio : Option ℚ
  error : String
deriving DecidableEq, Repr

/-- The per-entry body of `ResourceTestPool.testOnbasca`: returns the
resource's updated test result, or `none` for the run that panics
dereferencing the `nil` `Ratio` pointer in the final branch. -/
def testOnbascaEntry (threshold : ℚ) (bt : BridgeTest) (rt : ResourceTest) :
    Option ResourceTest :=
  if bt.error ≠ "" then
    some { rt with ratio := none, speed := SpeedUntested }
  else if (match bt.ratio with | some v => decide (v = 0) | none => false) && bt.functional then
    some { rt with ratio := none, speed := SpeedUntested }
  else
    match bt.ratio with
    | none => none
    | some v =>
      some { rt with
              speed := if v < threshold then SpeedRejected else SpeedAccepted
              ratio := some v }

/-! ## BackendResources (domain.go) -/

/-- `core.ResourceRequest` (channel omitted). -/
structure ResourceRequest where
  requestOrigin : String
  resourceTypes : List String
deriving DecidableEq, Repr

/-- `core.BackendResources`: the typed collection plus the event
recipients (one request per distributor name; the channel fan-out is
modelled by the emitted message list). -/
structure BackendResources where
  collection : List (String × PartitionedHashring)
  eventRecipients : List (String × ResourceRequest)

/-- `BackendResources.propagateUpdate`: build the single-entry diff for
the event, look up the partition owning the resource and emit the diff
to the recipient registered under that distributor name, if any and if
it requested the resource type. -/
def propagateUpdate (cooked : Nat → Nat) (fuel : Nat) (ctx : BackendResources)
    (r : Resource) (event : Nat) : Option (List (String × ResourceDiff)) :=
  match ctx.collection.lookup r.rtype with
  | none => some []
  | some pwd =>
    let rm : RMap := [(r.rtype, [r])]
    let diffOpt : Option ResourceDiff :=
      if event = ResourceIsNew then some ⟨rm, [], [], false⟩
      else if event = ResourceChanged then some ⟨[], rm, [], false⟩
      else if event = ResourceIsGone then some ⟨[], [], rm, false⟩
      else none
    match diffOpt with
    | none => some []
    | some diff =>
      match wdGetPartitionName cooked fuel pwd r with
      | none => none
      | some distName =>
        match ctx.eventRecipients.lookup distName with
        | none => some []
        | some req =>
          if r.rtype ∈ req.resourceTypes then some [(distName, diff)] else some []

/-- `BackendResources.Add`: silently return when the resource type has
no entry in the collection; otherwise `AddOrUpdate` on its group and
propagate any non-`ResourceUnchanged` event.  The returned list holds
the emitted diffs. -/
def BackendResources.Add (cooked : Nat → Nat) (fuel : Nat) (ctx : BackendResources)
    (r : Resource) (now : Int) : Option (BackendResources × List (String × ResourceDiff)) :=
  match ctx.collection.lookup r.rtype with
  | none => some (ctx, [])
  | some pwd =>
    match wdAddOrUpdate cooked fuel pwd r now with
    | none => none
    | some (pwd1, event) =>
      let ctx1 : BackendResources :=
        { ctx with collection := setAssoc ctx.collection r.rtype pwd1 }
      if event ≠ ResourceUnchanged then
        match propagateUpdate cooked fuel ctx1 r event with
        | none => none
        | some msgs => some (ctx1, msgs)
      else some (ctx1, [])

/-- `Collection.Add`: fail with an error for a resource type absent
from the collection, else delegate to the group's `Add`. -/
def Collection.Add (cooked : Nat → Nat) (fuel : Nat)
    (c : List (String × PartitionedHashring)) (r : Resource) (now : Int) :
    Except String (Option (List (String × PartitionedHashring) × Bool)) :=
  match c.lookup r.rtype with
  | none => .error ("No resource type " ++ r.rtype ++ " in collection")
  | some pwd =>
    .ok ((wdAdd cooked fuel pwd r now).map fun res => (setAssoc c r.rtype res.1, res.2))

/-! ## Collection.ApplyDiff (collection.go)

Each phase of `Collection.ApplyDiff` indexes the collection map anew
for every resource (`c[rType].Add(r)`); for a type absent from the
collection the indexing yields a `nil` `ResourceGroup` and the method
call panics, modelled as `none`. -/

/-- `partitionedHashring.Clear` (inherited by
`partitionedWithDistributors`): reset every partition ring to the empty
hashring, keeping the relation table and the stencil. -/
def groupClear (p : PartitionedHashring) : PartitionedHashring :=
  { p with partitions := p.partitions.map (fun q => (q.1, ([] : List Hashnode))) }

/-- `partitionedWithDistributors.Remove`: select the partition and
remove from its ring; `none` models a diverging stencil draw or the
`nil` hashring of an unknown partition name. -/
def wdRemove (cooked : Nat → Nat) (fuel : Nat) (p : PartitionedHashring)
    (r : Resource) : Option (PartitionedHashring × Bool) :=
  match wdGetPartitionName cooked fuel p r with
  | none => none
  | some name =>
    match p.partitions.lookup name with
    | none => none
    | some ring =>
      let res := Hashring.remove ring r
      some ({ p with partitions := setAssoc p.partitions name res.1 }, res.2)

/-- The inner loop of one `Collection.ApplyDiff` phase: apply `op` to
every resource of one diff entry, looking the group up again for each
resource; `none` when the type is unknown (the `nil`-group panic) or
`op` itself has no defined result. -/
def collRun (op : PartitionedHashring → Resource → Option PartitionedHashring) :
    List (String × PartitionedHashring) → String → List Resource
      → Option (List (String × PartitionedHashring))
  | c, _, [] => some c
  | c, t, r :: rs =>
    match c.lookup t with
    | none => none
    | some pwd =>
      match op pwd r with
      | none => none
      | some p1 => collRun op (setAssoc c t p1) t rs

/-- One phase of `Collection.ApplyDiff`: run the inner loop for every
entry of the phase's resource map. -/
def collPhase (op : PartitionedHashring → Resource → Option PartitionedHashring) :
    List (String × PartitionedHashring) → RMap
      → Option (List (String × PartitionedHashring))
  | c, [] => some c
  | c, (t, rs) :: rest =>
    match collRun op c t rs with
    | none => none
    | some c1 => collPhase op c1 rest

/-- `Collection.ApplyDiff`: on a full update first `Clear` every group
already in the collection; then the `New` entries are `Add`ed, the
`Changed` ones `AddOrUpdate`d and the `Gone` ones `Remove`d, each phase
indexing the collection per resource. -/
def Collection.ApplyDiff (cooked : Nat → Nat) (fuel : Nat)
    (c : List (String × PartitionedHashring)) (d : ResourceDiff) (now : Int) :
    Option (List (String × PartitionedHashring)) :=
  match collPhase (fun p r => (wdAdd cooked fuel p r now).map (fun res => res.1))
      (if d.fullUpdate then c.map (fun q => (q.1, groupClear q.2)) else c) d.new with
  | none => none
  | some c2 =>
    match collPhase (fun p r => (wdAddOrUpdate cooked fuel p r now).map (fun res => res.1))
        c2 d.changed with
    | none => none
    | some c3 =>
      collPhase (fun p r => (wdRemove cooked fuel p r).map (fun res => res.1)) c3 d.gone

/-! ## Spec-side definitions used by the theorems -/

/-- The hashkey sequence of a ring. -/
def nodeKeys (nodes : List Hashnode) : List Nat :=
  nodes.map (·.hashkey)

/-- The smallest index whose hashkey is `≥ k` (the ring length when
there is none); the reference value `sort.Search` computes on a sorted
ring. -/
def lowerIdx (k : Nat) : List Hashnode → Nat
  | [] => 0
  | n :: rest => if k ≤ n.hashkey then 0 else lowerIdx k rest + 1

/-- A mutation of the hashring: the three operations claim C7
quantifies over. -/
inductive RingOp where
  | add (r : Resource) (now : Int)
  | addOrUpdate (r : Resource) (now : Int)
  | remove (r : Resource)

/-- Apply one ring operation, keeping only the resulting ring. -/
def applyRingOp (nodes : List Hashnode) : RingOp → List Hashnode
  | .add r now => (Hashring.Add nodes r now).1
  | .addOrUpdate r now => (Hashring.AddOrUpdate nodes r now).1
  | .remove r => (Hashring.remove nodes r).1

/-- Apply a sequence of ring operations starting from the empty ring. -/
def applyRingOps (ops : List RingOp) : List Hashnode :=
  ops.foldl applyRingOp []

instance : IsTotal Hashnode (fun a b => a.hashkey ≤ b.hashkey) :=
  ⟨fun a b => Nat.le_total a.hashkey b.hashkey⟩

instance : IsTrans Hashnode (fun a b => a.hashkey ≤ b.hashkey) :=
  ⟨fun _ _ _ hab hbc => Nat.le_trans hab hbc⟩

/-- Sortedness invariant of a hashring: strictly increasing hashkeys
(which also rules out duplicate uids). -/
def SortedRing (nodes : List Hashnode) : Prop :=
  (nodeKeys nodes).Pairwise (· < ·)

/-! ## Concrete instances used for evaluation

A sample valuation of the abstract PRNG constants, and two concrete
resources sharing the relation identifier `"f"`, used to evaluate the
partitioned hashring on a closed input. -/

/-- A sample valuation of the abstract `rngCooked` constants. -/
def cooked0 : Nat → Nat := fun _ => 0

/-- A concrete resource (uid 10, relation identifier `"f"`, no declared
distributor). -/
def rColoc1 : Resource := ⟨"t", 10, 1, ["f"], "", 100, ⟨0, 0, none, 0, 0, ""⟩⟩

/-- A concrete resource (uid 99) sharing the relation identifier `"f"`
with `rColoc1`. -/
def rColoc2 : Resource := ⟨"t", 99, 2, ["f", "g"], "", 100, ⟨0, 0, none, 0, 0, ""⟩⟩

/-- The state of the fresh `{p: 1, q: 1}` partitioned hashring after
adding `rColoc1` (under `cooked0`): the uid-10 node sits in partition
`"q"` and `"f"` is recorded for `"q"` in the relation table. -/
def pColoc1 : PartitionedHashring :=
  ⟨[("p", []), ("q", [⟨10, rColoc1, 0⟩]), ("none", [])],
   [("f", "q")],
   [⟨0, 0, "p"⟩, ⟨1, 1, "q"⟩]⟩

/-- A concrete resource with uid 2. -/
def rUid2 : Resource := ⟨"t", 2, 1, [], "", 100, ⟨0, 0, none, 0, 0, ""⟩⟩

/-- A concrete resource with uid 5. -/
def rUid5 : Resource := ⟨"t", 5, 1, [], "", 100, ⟨0, 0, none, 0, 0, ""⟩⟩

/-- A concrete resource with uid 9. -/
def rUid9 : Resource := ⟨"t", 9, 1, [], "", 100, ⟨0, 0, none, 0, 0, ""⟩⟩

/-- The concrete three-node ring with hashkeys 2, 5, 9 named by the
specification. -/
def ring259 : List Hashnode := [⟨2, rUid2, 0⟩, ⟨5, rUid5, 0⟩, ⟨9, rUid9, 0⟩]

/-- A concrete dysfunctional resource sharing uid 5 with `rUid5` but
carrying a different oid. -/
def rDys : Resource := ⟨"t", 5, 2, [], "", 100, ⟨StateDysfunctional, 0, none, 0, 0, ""⟩⟩

/-- A concrete resource with uid 1 and one relation identifier. -/
def rStencil : Resource := ⟨"t", 1, 1, ["fp"], "", 100, ⟨0, 0, none, 0, 0, ""⟩⟩

/-- A concrete resource with declared distributor `"p"` and relation
identifier `"y"`. -/
def rRel0 : Resource := ⟨"t", 7, 1, ["y"], "p", 100, ⟨0, 0, none, 0, 0, ""⟩⟩

/-- A concrete resource with relation identifier `"x"` and no declared
distributor. -/
def rRelX : Resource := ⟨"t", 10, 1, ["x"], "", 100, ⟨0, 0, none, 0, 0, ""⟩⟩

/-- A concrete resource with relation identifiers `"x"` and `"y"` and
no declared distributor. -/
def rRelXY : Resource := ⟨"t", 11, 1, ["x", "y"], "", 100, ⟨0, 0, none, 0, 0, ""⟩⟩

/-- The fresh `{p: 1, q: 1}` partitioned hashring after adding `rRel0`:
its declared distributor puts it in `"p"` and `"y"` is recorded for
`"p"`. -/
def pRel1 : PartitionedHashring :=
  ⟨[("p", [⟨7, rRel0, 0⟩]), ("q", []), ("none", [])],
   [("y", "p")],
   [⟨0, 0, "p"⟩, ⟨1, 1, "q"⟩]⟩

/-- The state after also adding `rRelX` (under `cooked0`): the stencil
draw for uid 10 lands it in `"q"` and `"x"` is recorded for `"q"`. -/
def pRel2 : PartitionedHashring :=
  ⟨[("p", [⟨7, rRel0, 0⟩]), ("q", [⟨10, rRelX, 0⟩]), ("none", [])],
   [("y", "p"), ("x", "q")],
   [⟨0, 0, "p"⟩, ⟨1, 1, "q"⟩]⟩

/-- The state after also adding `rRelXY`: the relation scan ends on
`"y" → "p"` (last match wins), so it lands in `"p"` although it shares
`"x"` with the `"q"`-resident `rRelX`, and `"x"` is re-recorded for
`"p"`. -/
def pRel3 : PartitionedHashring :=
  ⟨[("p", [⟨7, rRel0, 0⟩, ⟨11, rRelXY, 0⟩]), ("q", [⟨10, rRelX, 0⟩]), ("none", [])],
   [("y", "p"), ("x", "p")],
   [⟨0, 0, "p"⟩, ⟨1, 1, "q"⟩]⟩

/-! ## Theorems

First the binary-search foundation: on a (weakly) sorted ring,
`sort.Search` lands on `lowerIdx`. -/

theorem goSearchLoop_eq (pred : Nat → Bool) :
    ∀ fuel i j t : Nat, i ≤ t → t ≤ j → j - i ≤ fuel →
      (∀ x, x < t → pred x = false) →
      (∀ x, t ≤ x → x < j → pred x = true) →
      goSearchLoop pred fuel i j = t := by
  intro fuel
  induction fuel with
  | zero =>
    intro i j t hit htj hfuel _ _
    have : i = t := by omega
    simp [goSearchLoop, this]
  | succ n ih =>
    intro i j t hit htj hfuel hlow hhigh
    by_cases hij : i < j
    · have hmid1 : i ≤ (i + j) / 2 := by omega
      have hmid2 : (i + j) / 2 < j := by omega
      by_cases hp : pred ((i + j) / 2) = true
      · have hth : t ≤ (i + j) / 2 := by
          by_contra hc
          have := hlow ((i + j) / 2) (by omega)
          rw [this] at hp; exact Bool.false_ne_true hp
        simp only [goSearchLoop, if_pos hij, hp, if_pos]
        exact ih i ((i + j) / 2) t hit hth (by omega) hlow
          (fun x hx1 hx2 => hhigh x hx1 (by omega))
      · have hth : (i + j) / 2 < t := by
          by_contra hc
          exact hp (hhigh ((i + j) / 2) (by omega) hmid2)
        simp only [goSearchLoop, if_pos hij, hp, if_neg, Bool.false_eq_true,
          not_false_eq_true]
        exact ih ((i + j) / 2 + 1) j t (by omega) htj (by omega) hlow hhigh
    · have hts : i = t := by omega
      subst hts
      simp only [goSearchLoop, if_neg hij]

theorem lowerIdx_le (k : Nat) : ∀ nodes : List Hashnode, lowerIdx k nodes ≤ nodes.length := by
  intro nodes
  induction nodes with
  | nil => simp [lowerIdx]
  | cons n rest ih =>
    by_cases h : k ≤ n.hashkey
    · simp [lowerIdx, h]
    · simp only [lowerIdx, if_neg h, List.length_cons]
      omega

theorem lowerIdx_lt_key (k : Nat) :
    ∀ (nodes : List Hashnode) (x : Nat), x < lowerIdx k nodes →
      (nodes.getD x default).hashkey < k := by
  intro nodes
  induction nodes with
  | nil => intro x hx; simp [lowerIdx] at hx
  | cons n rest ih =>
    intro x hx
    by_cases h : k ≤ n.hashkey
    · simp [lowerIdx, h] at hx
    · rw [lowerIdx, if_neg h] at hx
      match x with
      | 0 => simpa using Nat.lt_of_not_le h
      | y + 1 => exact ih y (by omega)

theorem lowerIdx_ge_key (k : Nat) :
    ∀ nodes : List Hashnode,
      nodes.Pairwise (fun a b => a.hashkey ≤ b.hashkey) →
      ∀ x : Nat, lowerIdx k nodes ≤ x → x < nodes.length →
        k ≤ (nodes.getD x default).hashkey := by
  intro nodes
  induction nodes with
  | nil => intro _ x _ hx; simp at hx
  | cons n rest ih =>
    intro hs x hlo hx
    have hpair := (List.pairwise_cons.mp hs).1
    have htail := (List.pairwise_cons.mp hs).2
    by_cases h : k ≤ n.hashkey
    · match x with
      | 0 => simpa using h
      | y + 1 =>
        have hy : y < rest.length := by simpa using hx
        have hmem : rest.getD y default ∈ rest := by
          rw [List.getD_eq_getElem rest default hy]
          exact List.getElem_mem hy
        exact le_trans h (hpair _ hmem)
    · rw [lowerIdx, if_neg h] at hlo
      match x with
      | 0 => omega
      | y + 1 => exact ih htail y (by omega) (by simpa using hx)

theorem goSearch_eq_lowerIdx (nodes : List Hashnode) (k : Nat)
    (hs : nodes.Pairwise (fun a b => a.hashkey ≤ b.hashkey)) :
    goSearch nodes.length (fun x => decide (k ≤ (nodes.getD x default).hashkey))
      = lowerIdx k nodes := by
  apply goSearchLoop_eq _ nodes.length 0 nodes.length (lowerIdx k nodes)
    (Nat.zero_le _) (lowerIdx_le k nodes) (by omega)
  · intro x hx
    simpa using Nat.not_le_of_lt (lowerIdx_lt_key k nodes x hx)
  · intro x hx1 hx2
    simpa using lowerIdx_ge_key k nodes hs x hx1 hx2
theorem findUid_eq (nodes : List Hashnode) (k : Nat)
    (hs : nodes.Pairwise (fun a b => a.hashkey ≤ b.hashkey)) :
    Hashring.findUid nodes k =
      if lowerIdx k nodes < nodes.length ∧ (nodes.getD (lowerIdx k nodes) default).hashkey = k
      then some (lowerIdx k nodes) else none := by
  by_cases hlen : nodes.length = 0
  · have hcond : ¬(lowerIdx k nodes < nodes.length ∧
        (nodes.getD (lowerIdx k nodes) default).hashkey = k) := by
      rintro ⟨hx, -⟩; omega
    simp [Hashring.findUid, Hashring.getIndex, hlen, hcond,
      -List.getD_eq_getElem?_getD]
  · by_cases hwrap : nodes.length ≤ lowerIdx k nodes
    · have heq : lowerIdx k nodes = nodes.length :=
        le_antisymm (lowerIdx_le k nodes) hwrap
      have h0lt : 0 < lowerIdx k nodes := by omega
      have hkey0 : (nodes.getD 0 default).hashkey < k := lowerIdx_lt_key k nodes 0 h0lt
      have hcond : ¬(lowerIdx k nodes < nodes.length ∧
          (nodes.getD (lowerIdx k nodes) default).hashkey = k) := by
        rintro ⟨hx, -⟩; omega
      have hfound : ¬(0 < nodes.length ∧ (nodes.getD 0 default).hashkey = k) := by
        rintro ⟨-, hx⟩; omega
      simp [Hashring.findUid, Hashring.getIndex, hlen,
        goSearch_eq_lowerIdx nodes k hs, hwrap, hfound, hcond,
        -List.getD_eq_getElem?_getD]
    · have hlt : lowerIdx k nodes < nodes.length := Nat.lt_of_not_le hwrap
      by_cases hk : (nodes.getD (lowerIdx k nodes) default).hashkey = k
      · simp [Hashring.findUid, Hashring.getIndex, hlen,
          goSearch_eq_lowerIdx nodes k hs, hwrap, hlt, hk,
          -List.getD_eq_getElem?_getD]
      · have hcond : ¬(lowerIdx k nodes < nodes.length ∧
            (nodes.getD (lowerIdx k nodes) default).hashkey = k) := by
          rintro ⟨-, hx⟩; exact hk hx
        simp [Hashring.findUid, Hashring.getIndex, hlen,
          goSearch_eq_lowerIdx nodes k hs, hwrap, hcond, hk,
          -List.getD_eq_getElem?_getD]

theorem mem_keys_iff_lowerIdx (nodes : List Hashnode) (k : Nat)
    (hs : nodes.Pairwise (fun a b => a.hashkey ≤ b.hashkey)) :
    k ∈ nodeKeys nodes ↔
      lowerIdx k nodes < nodes.length ∧
        (nodes.getD (lowerIdx k nodes) default).hashkey = k := by
  constructor
  · intro hmem
    obtain ⟨nd, hnd, hkey⟩ := List.mem_map.mp hmem
    obtain ⟨pos, hpos, hget⟩ := List.getElem_of_mem hnd
    have hgetD : (nodes.getD pos default).hashkey = k := by
      rw [List.getD_eq_getElem nodes default hpos, hget, hkey]
    have hge : lowerIdx k nodes ≤ pos := by
      by_contra hc
      have := lowerIdx_lt_key k nodes pos (Nat.lt_of_not_le hc)
      omega
    have hlt : lowerIdx k nodes < nodes.length := Nat.lt_of_le_of_lt hge hpos
    refine ⟨hlt, le_antisymm ?_ (lowerIdx_ge_key k nodes hs _ le_rfl hlt)⟩
    rcases Nat.eq_or_lt_of_le hge with hcase | hltpos
    · rw [hcase, hgetD]
    · have hpw := List.pairwise_iff_getElem.mp hs _ _ hlt hpos hltpos
      rw [List.getD_eq_getElem nodes default hlt]
      rw [List.getD_eq_getElem nodes default hpos] at hgetD
      omega
  · rintro ⟨hlt, hkey⟩
    rw [List.getD_eq_getElem nodes default hlt] at hkey
    exact hkey ▸ List.mem_map_of_mem (·.hashkey) (List.getElem_mem hlt)

theorem pairwise_le_of_sortedRing {nodes : List Hashnode} (hs : SortedRing nodes) :
    nodes.Pairwise (fun a b => a.hashkey ≤ b.hashkey) :=
  (List.pairwise_map.mp hs).imp (fun h => Nat.le_of_lt h)

theorem nodeKeys_set_same :
    ∀ (nodes : List Hashnode) (i : Nat) (v : Hashnode),
      v.hashkey = (nodes.getD i default).hashkey →
      nodeKeys (nodes.set i v) = nodeKeys nodes := by
  intro nodes
  induction nodes with
  | nil => intro i v _; rfl
  | cons n rest ih =>
    intro i v hv
    match i with
    | 0 =>
      simp only [List.getD, List.get?, Option.getD] at hv
      simp [nodeKeys, List.set, hv]
    | j + 1 =>
      have := ih j v (by simpa [List.getD] using hv)
      simp only [List.set, nodeKeys, List.map_cons]
      rw [show (rest.set j v).map (·.hashkey) = nodeKeys (rest.set j v) from rfl, this]
      rfl

theorem nodup_keys_of_sortedRing {nodes : List Hashnode} (hs : SortedRing nodes) :
    (nodeKeys nodes).Nodup :=
  hs.imp (fun h => Nat.ne_of_lt h)

theorem pairwise_lt_of_le_nodup {xs : List Nat}
    (hle : xs.Pairwise (· ≤ ·)) (hnd : xs.Nodup) : xs.Pairwise (· < ·) :=
  (hle.and hnd).imp (fun h => Nat.lt_of_le_of_ne h.1 h.2)

theorem sortedRing_sortNodes_append {nodes : List Hashnode} (nd : Hashnode)
    (hs : SortedRing nodes) (hfresh : nd.hashkey ∉ nodeKeys nodes) :
    SortedRing (sortNodes (nodes ++ [nd])) := by
  have hperm : List.Perm (sortNodes (nodes ++ [nd])) (nodes ++ [nd]) :=
    List.perm_insertionSort _ _
  have hkeysperm : List.Perm (nodeKeys (sortNodes (nodes ++ [nd])))
      (nodeKeys (nodes ++ [nd])) :=
    List.Perm.map (fun nd0 : Hashnode => nd0.hashkey) hperm
  have hnodup : (nodeKeys (nodes ++ [nd])).Nodup := by
    rw [nodeKeys, List.map_append]
    refine List.Nodup.append (nodup_keys_of_sortedRing hs) (by simp) ?_
    intro a ha hb
    simp only [List.map_cons, List.map_nil, List.mem_singleton] at hb
    exact hfresh (hb ▸ ha)
  have hle : (nodeKeys (sortNodes (nodes ++ [nd]))).Pairwise (· ≤ ·) :=
    List.pairwise_map.mpr (List.sorted_insertionSort _ (nodes ++ [nd]))
  exact pairwise_lt_of_le_nodup hle (hkeysperm.nodup_iff.mpr hnodup)

theorem sortedRing_erase {nodes : List Hashnode} (i : Nat) (hs : SortedRing nodes) :
    SortedRing (nodes.take i ++ nodes.drop (i + 1)) := by
  have hsub : List.Sublist (nodeKeys (nodes.take i ++ nodes.drop (i + 1)))
      (nodeKeys nodes) := by
    rw [nodeKeys, List.map_append, List.map_take, List.map_drop]
    have h1 : List.Sublist ((nodes.map (·.hashkey)).drop (i + 1))
        ((nodes.map (·.hashkey)).drop i) := by
      have h2 : (nodes.map (·.hashkey)).drop (i + 1)
          = ((nodes.map (·.hashkey)).drop i).drop 1 := by
        rw [List.drop_drop, Nat.add_comm]
      rw [h2]
      exact List.drop_sublist _ _
    calc List.Sublist
          ((nodes.map (·.hashkey)).take i ++ (nodes.map (·.hashkey)).drop (i + 1))
          ((nodes.map (·.hashkey)).take i ++ (nodes.map (·.hashkey)).drop i) :=
          List.Sublist.append_left h1 _
      _ = nodes.map (·.hashkey) := List.take_append_drop _ _
  exact List.Pairwise.sublist hsub hs

theorem not_mem_of_findUid_none {nodes : List Hashnode} {k : Nat}
    (hs : nodes.Pairwise (fun a b => a.hashkey ≤ b.hashkey))
    (hf : Hashring.findUid nodes k = none) : k ∉ nodeKeys nodes := by
  rw [findUid_eq nodes k hs] at hf
  intro hmem
  rw [mem_keys_iff_lowerIdx nodes k hs] at hmem
  rw [if_pos hmem] at hf
  cases hf

theorem findUid_some_spec {nodes : List Hashnode} {k : Nat} {i : Nat}
    (hs : nodes.Pairwise (fun a b => a.hashkey ≤ b.hashkey))
    (hf : Hashring.findUid nodes k = some i) :
    i = lowerIdx k nodes ∧ i < nodes.length ∧ (nodes.getD i default).hashkey = k := by
  rw [findUid_eq nodes k hs] at hf
  by_cases hcond : lowerIdx k nodes < nodes.length ∧
      (nodes.getD (lowerIdx k nodes) default).hashkey = k
  · rw [if_pos hcond] at hf
    cases hf
    exact ⟨rfl, hcond⟩
  · rw [if_neg hcond] at hf
    cases hf

theorem nodeKeys_setLastUpdate (nodes : List Hashnode) (i : Nat) (now : Int) :
    nodeKeys (setLastUpdate nodes i now) = nodeKeys nodes :=
  nodeKeys_set_same nodes i _ rfl

theorem sortedRing_Add {nodes : List Hashnode} (r : Resource) (now : Int)
    (hs : SortedRing nodes) : SortedRing (Hashring.Add nodes r now).1 := by
  unfold Hashring.Add
  cases hf : Hashring.findUid nodes r.uid with
  | some i =>
    simp only
    rw [SortedRing, nodeKeys_setLastUpdate]
    exact hs
  | none =>
    simp only
    exact sortedRing_sortNodes_append ⟨r.uid, r, now⟩ hs
      (not_mem_of_findUid_none (pairwise_le_of_sortedRing hs) hf)

theorem nodeKeys_set_update (ns : List Hashnode) (i : Nat) (e : Resource) :
    nodeKeys (ns.set i { ns.getD i default with elem := e }) = nodeKeys ns :=
  nodeKeys_set_same ns i _ rfl

theorem nodeKeys_addOrUpdate_some {nodes : List Hashnode} {r : Resource} {now : Int}
    {i : Nat} (hf : Hashring.findUid nodes r.uid = some i) :
    nodeKeys (Hashring.AddOrUpdate nodes r now).1 = nodeKeys nodes := by
  unfold Hashring.AddOrUpdate
  rw [hf]
  simp only
  split
  all_goals try split
  all_goals try split
  all_goals simp only [nodeKeys_set_update, nodeKeys_setLastUpdate]

theorem sortedRing_AddOrUpdate {nodes : List Hashnode} (r : Resource) (now : Int)
    (hs : SortedRing nodes) : SortedRing (Hashring.AddOrUpdate nodes r now).1 := by
  cases hf : Hashring.findUid nodes r.uid with
  | some i =>
    rw [SortedRing, nodeKeys_addOrUpdate_some hf]
    exact hs
  | none =>
    unfold Hashring.AddOrUpdate
    rw [hf]
    simp only
    exact sortedRing_sortNodes_append ⟨r.uid, r, now⟩ hs
      (not_mem_of_findUid_none (pairwise_le_of_sortedRing hs) hf)

theorem sortedRing_remove {nodes : List Hashnode} (r : Resource)
    (hs : SortedRing nodes) : SortedRing (Hashring.remove nodes r).1 := by
  unfold Hashring.remove
  cases hf : Hashring.findUid nodes r.uid with
  | none => exact hs
  | some i => exact sortedRing_erase i hs

theorem sortedRing_foldl (ops : List RingOp) :
    ∀ nodes : List Hashnode, SortedRing nodes →
      SortedRing (ops.foldl applyRingOp nodes) := by
  induction ops with
  | nil => intro nodes hs; exact hs
  | cons op rest ih =>
    intro nodes hs
    rw [List.foldl_cons]
    refine ih _ ?_
    cases op with
    | add r now => exact sortedRing_Add r now hs
    | addOrUpdate r now => exact sortedRing_AddOrUpdate r now hs
    | remove r => exact sortedRing_remove r hs

/-- C7: after any sequence of `Add`, `AddOrUpdate` and `Remove`
operations starting from an empty hashring, the node sequence has
strictly increasing hashkeys — it is sorted in ascending order and no
two nodes share a hashkey (no duplicate uids). -/
theorem ring_order_invariant (ops : List RingOp) :
    SortedRing (applyRingOps ops) ∧ (nodeKeys (applyRingOps ops)).Nodup := by
  have hs : SortedRing (applyRingOps ops) :=
    sortedRing_foldl ops [] List.Pairwise.nil
  exact ⟨hs, nodup_keys_of_sortedRing hs⟩

theorem map_set_same {β : Type} (f : Hashnode → β) :
    ∀ (nodes : List Hashnode) (i : Nat) (v : Hashnode),
      f v = f (nodes.getD i default) →
      (nodes.set i v).map f = nodes.map f := by
  intro nodes
  induction nodes with
  | nil => intro i v _; rfl
  | cons n rest ih =>
    intro i v hv
    match i with
    | 0 =>
      simp only [List.getD, List.get?, Option.getD] at hv
      simp [List.set, hv]
    | j + 1 =>
      have := ih j v (by simpa [List.getD] using hv)
      simp only [List.set, List.map_cons, this]

theorem mem_keys_Add {nodes : List Hashnode} (r : Resource) (now : Int)
    (hs : SortedRing nodes) :
    r.uid ∈ nodeKeys (Hashring.Add nodes r now).1 := by
  unfold Hashring.Add
  cases hf : Hashring.findUid nodes r.uid with
  | some i =>
    obtain ⟨hi, hlt, hkey⟩ := findUid_some_spec (pairwise_le_of_sortedRing hs) hf
    simp only
    rw [nodeKeys_setLastUpdate]
    rw [List.getD_eq_getElem nodes default hlt] at hkey
    exact hkey ▸ List.mem_map_of_mem (·.hashkey) (List.getElem_mem hlt)
  | none =>
    simp only
    have hperm : List.Perm (nodeKeys (sortNodes (nodes ++ [⟨r.uid, r, now⟩])))
        (nodeKeys (nodes ++ [⟨r.uid, r, now⟩])) :=
      List.Perm.map (fun nd : Hashnode => nd.hashkey) (List.perm_insertionSort _ _)
    refine hperm.mem_iff.mpr ?_
    rw [nodeKeys, List.map_append]
    simp

/-- C9: if a resource's uid is already present, `Add` refreshes that
node's `lastUpdate` and nothing else — it returns the "already
present" error, keeps every stored element and every hashkey — and
calling `Add` twice in a row always leaves exactly one node carrying
the resource's uid. -/
theorem add_idempotent (nodes : List Hashnode) (r : Resource) (now t2 : Int)
    (hs : SortedRing nodes) :
    (r.uid ∈ nodeKeys nodes →
      (Hashring.Add nodes r now).2 = true ∧
      (Hashring.Add nodes r now).1 = setLastUpdate nodes (lowerIdx r.uid nodes) now ∧
      (Hashring.Add nodes r now).1.map (·.elem) = nodes.map (·.elem) ∧
      nodeKeys (Hashring.Add nodes r now).1 = nodeKeys nodes)
    ∧ (nodeKeys (Hashring.Add (Hashring.Add nodes r now).1 r t2).1).count r.uid = 1 := by
  constructor
  · intro hmem
    have hsle := pairwise_le_of_sortedRing hs
    have hcond := (mem_keys_iff_lowerIdx nodes r.uid hsle).mp hmem
    have hf : Hashring.findUid nodes r.uid = some (lowerIdx r.uid nodes) := by
      rw [findUid_eq nodes r.uid hsle, if_pos hcond]
    unfold Hashring.Add
    rw [hf]
    refine ⟨rfl, rfl, ?_, nodeKeys_setLastUpdate nodes _ now⟩
    exact map_set_same (·.elem) nodes _ _ rfl
  · have hs1 : SortedRing (Hashring.Add nodes r now).1 := sortedRing_Add r now hs
    have hmem1 : r.uid ∈ nodeKeys (Hashring.Add nodes r now).1 := mem_keys_Add r now hs
    set ring1 := (Hashring.Add nodes r now).1 with hring1
    have hsle1 := pairwise_le_of_sortedRing hs1
    have hcond1 := (mem_keys_iff_lowerIdx _ r.uid hsle1).mp hmem1
    have hf1 : Hashring.findUid ring1 r.uid = some (lowerIdx r.uid ring1) := by
      rw [findUid_eq _ r.uid hsle1, if_pos hcond1]
    have hkeys : nodeKeys (Hashring.Add ring1 r t2).1 = nodeKeys ring1 := by
      unfold Hashring.Add
      rw [hf1]
      exact nodeKeys_setLastUpdate _ _ t2
    rw [hkeys]
    exact List.count_eq_one_of_mem (nodup_keys_of_sortedRing hs1) hmem1

theorem getIndex_idx_spec (nodes : List Hashnode) (k : Nat)
    (hs : nodes.Pairwise (fun a b => a.hashkey ≤ b.hashkey))
    (hne : ¬nodes.length = 0) :
    (Hashring.getIndex nodes k).idx =
      ((if lowerIdx k nodes = nodes.length then 0 else lowerIdx k nodes : Nat) : Int) := by
  unfold Hashring.getIndex
  rw [if_neg hne]
  simp only [goSearch_eq_lowerIdx nodes k hs]
  rw [apply_ite IndexResult.idx]
  have hiff : (nodes.length ≤ lowerIdx k nodes) ↔ (lowerIdx k nodes = nodes.length) := by
    have := lowerIdx_le k nodes
    omega
  by_cases hw : lowerIdx k nodes = nodes.length
  · simp [hiff, hw]
  · simp [hiff, hw]

/-- C8: on a non-empty sorted ring, `GetMany(k, n)` (for `n ≥ 0`)
returns exactly `min n len` resources, walking forward with wrap-around
from the start index: the smallest index whose hashkey is `≥ k`
(`lowerIdx`), wrapping to `0` when every hashkey is below `k`.  The
final two conjuncts pin down that start index as the claim describes
it. -/
theorem getMany_spec (nodes : List Hashnode) (k : Nat) (num : Int)
    (hs : SortedRing nodes) (hne : nodes ≠ []) (hnum : 0 ≤ num) :
    Hashring.GetMany nodes k num =
      some ((List.range (min num.toNat nodes.length)).map fun j =>
        (nodes.getD
          (((if lowerIdx k nodes = nodes.length then 0 else lowerIdx k nodes) + j)
            % nodes.length) default).elem)
    ∧ (lowerIdx k nodes < nodes.length →
        k ≤ (nodes.getD (lowerIdx k nodes) default).hashkey ∧
        ∀ x, x < lowerIdx k nodes → (nodes.getD x default).hashkey < k)
    ∧ (lowerIdx k nodes = nodes.length →
        ∀ x, x < nodes.length → (nodes.getD x default).hashkey < k) := by
  have hlen : ¬nodes.length = 0 := by
    intro h
    exact hne (List.length_eq_zero.mp h)
  have hsle := pairwise_le_of_sortedRing hs
  refine ⟨?_, ?_, ?_⟩
  · unfold Hashring.GetMany
    rw [if_neg hlen]
    have hidx := getIndex_idx_spec nodes k hsle hlen
    have hnotneg : ¬(¬(Hashring.getIndex nodes k).found = true ∧
        (Hashring.getIndex nodes k).idx = -1) := by
      rintro ⟨-, habs⟩
      rw [hidx] at habs
      omega
    rw [if_neg hnotneg]
    have htonat : (Hashring.getIndex nodes k).idx.toNat
        = (if lowerIdx k nodes = nodes.length then 0 else lowerIdx k nodes) := by
      rw [hidx]
      exact Int.toNat_natCast _
    have hmin : (if (nodes.length : Int) ≤ num then (nodes.length : Int) else num).toNat
        = min num.toNat nodes.length := by
      by_cases hc : (nodes.length : Int) ≤ num
      · rw [if_pos hc]
        omega
      · rw [if_neg hc]
        omega
    rw [htonat, hmin]
  · intro hlt
    exact ⟨lowerIdx_ge_key k nodes hsle _ le_rfl hlt,
      fun x hx => lowerIdx_lt_key k nodes x hx⟩
  · intro heq x hx
    exact lowerIdx_lt_key k nodes x (by omega)

theorem getD_set_self (nodes : List Hashnode) (i : Nat) (v : Hashnode)
    (h : i < nodes.length) : (nodes.set i v).getD i default = v := by
  rw [List.getD_eq_getElem?_getD, List.getElem?_set_self h]
  rfl

theorem getD_set_ne (nodes : List Hashnode) (i j : Nat) (v : Hashnode)
    (h : j ≠ i) : (nodes.set i v).getD j default = nodes.getD j default := by
  rw [List.getD_eq_getElem?_getD, List.getElem?_set_ne (by omega),
    ← List.getD_eq_getElem?_getD]

theorem getD_setLastUpdate_self (nodes : List Hashnode) (i : Nat) (now : Int)
    (h : i < nodes.length) :
    (setLastUpdate nodes i now).getD i default
      = { nodes.getD i default with lastUpdate := now } :=
  getD_set_self nodes i _ h

theorem length_setLastUpdate (nodes : List Hashnode) (i : Nat) (now : Int) :
    (setLastUpdate nodes i now).length = nodes.length :=
  List.length_set nodes i _

/-- C2 (amended): `AddOrUpdate` inserts and returns `ResourceIsNew`
when the uid is absent — regardless of the resource's test result.
When the uid is present at index `i` it refreshes that node's
timestamp, replaces the stored element iff the Oid changed, and only
then upgrades the event to `ResourceIsGone` when the (possibly
replaced) stored test result is Dysfunctional or Rejected, or stamps
`lastPassed` on the argument (and, if just replaced, on the stored
element) when Functional and Accepted; all other nodes are untouched. -/
theorem addOrUpdate_spec (nodes : List Hashnode) (r : Resource) (now : Int)
    (hs : SortedRing nodes) :
    (r.uid ∉ nodeKeys nodes →
      Hashring.AddOrUpdate nodes r now
        = (sortNodes (nodes ++ [⟨r.uid, r, now⟩]), ResourceIsNew, r))
    ∧ (∀ i : Nat, Hashring.findUid nodes r.uid = some i →
        ((Hashring.AddOrUpdate nodes r now).2.1 =
          (if (if (nodes.getD i default).elem.oid ≠ r.oid then r
               else (nodes.getD i default).elem).test.state = StateDysfunctional ∨
              (if (nodes.getD i default).elem.oid ≠ r.oid then r
               else (nodes.getD i default).elem).test.speed = SpeedRejected
           then ResourceIsGone
           else if (nodes.getD i default).elem.oid ≠ r.oid
           then ResourceChanged else ResourceUnchanged))
        ∧ nodeKeys (Hashring.AddOrUpdate nodes r now).1 = nodeKeys nodes
        ∧ ((Hashring.AddOrUpdate nodes r now).1.getD i default).lastUpdate = now
        ∧ ((Hashring.AddOrUpdate nodes r now).1.getD i default).elem =
            (if ¬((if (nodes.getD i default).elem.oid ≠ r.oid then r
                   else (nodes.getD i default).elem).test.state = StateDysfunctional ∨
                  (if (nodes.getD i default).elem.oid ≠ r.oid then r
                   else (nodes.getD i default).elem).test.speed = SpeedRejected) ∧
                (if (nodes.getD i default).elem.oid ≠ r.oid then r
                 else (nodes.getD i default).elem).test.state = StateFunctional ∧
                (if (nodes.getD i default).elem.oid ≠ r.oid then r
                 else (nodes.getD i default).elem).test.speed = SpeedAccepted ∧
                (nodes.getD i default).elem.oid ≠ r.oid
             then { r with test := { r.test with lastPassed := now } }
             else (if (nodes.getD i default).elem.oid ≠ r.oid then r




                   else (nodes.getD i default).elem))
        ∧ (∀ j : Nat, j < nodes.length → j ≠ i →
            (Hashring.AddOrUpdate nodes r now).1.getD j default = nodes.getD j default)
        ∧ (Hashring.AddOrUpdate nodes r now).2.2 =
            (if ¬((if (nodes.getD i default).elem.oid ≠ r.oid then r
                   else (nodes.getD i default).elem).test.state = StateDysfunctional ∨
                  (if (nodes.getD i default).elem.oid ≠ r.oid then r
                   else (nodes.getD i default).elem).test.speed = SpeedRejected) ∧
                (if (nodes.getD i default).elem.oid ≠ r.oid then r
                 else (nodes.getD i default).elem).test.state = StateFunctional ∧
                (if (nodes.getD i default).elem.oid ≠ r.oid then r
                 else (nodes.getD i default).elem).test.speed = SpeedAccepted
             then { r with test := { r.test with lastPassed := now } }
             else r)) := by
  have hsle := pairwise_le_of_sortedRing hs
  constructor
  · intro hni
    have hf : Hashring.findUid nodes r.uid = none := by
      rw [findUid_eq _ _ hsle, if_neg]
      intro hc
      exact hni ((mem_keys_iff_lowerIdx nodes r.uid hsle).mpr hc)
    unfold Hashring.AddOrUpdate
    rw [hf]
  · intro i hf
    obtain ⟨hieq, hlt, hkey⟩ := findUid_some_spec hsle hf
    have hkeys := @nodeKeys_addOrUpdate_some nodes r now i hf
    have hc1 : ¬(StateFunctional = StateDysfunctional) := by decide
    have hc2 : ¬(SpeedAccepted = SpeedRejected) := by decide
    have hlen1 := length_setLastUpdate nodes i now
    have hlt1 : i < (setLastUpdate nodes i now).length := by rw [hlen1]; exact hlt
    have hn1 : (setLastUpdate nodes i now).getD i default
        = ⟨(nodes.getD i default).hashkey, (nodes.getD i default).elem, now⟩ :=
      getD_setLastUpdate_self nodes i now hlt
    have hn2 : ((setLastUpdate nodes i now).set i
        ⟨(nodes.getD i default).hashkey, r, now⟩).getD i default
        = ⟨(nodes.getD i default).hashkey, r, now⟩ :=
      getD_set_self _ i _ hlt1
    have hres : Hashring.AddOrUpdate nodes r now =
        (if (nodes.getD i default).elem.oid ≠ r.oid then
          (if r.test.state = StateDysfunctional ∨ r.test.speed = SpeedRejected then
            ((setLastUpdate nodes i now).set i
              ⟨(nodes.getD i default).hashkey, r, now⟩, ResourceIsGone, r)
          else if r.test.state = StateFunctional ∧ r.test.speed = SpeedAccepted then
            (((setLastUpdate nodes i now).set i
                ⟨(nodes.getD i default).hashkey, r, now⟩).set i
              ⟨(nodes.getD i default).hashkey,
                { r with test := { r.test with lastPassed := now } }, now⟩,
              ResourceChanged, { r with test := { r.test with lastPassed := now } })
          else
            ((setLastUpdate nodes i now).set i
              ⟨(nodes.getD i default).hashkey, r, now⟩, ResourceChanged, r))
        else
          (if (nodes.getD i default).elem.test.state = StateDysfunctional ∨
              (nodes.getD i default).elem.test.speed = SpeedRejected then
            (setLastUpdate nodes i now, ResourceIsGone, r)
          else if (nodes.getD i default).elem.test.state = StateFunctional ∧
              (nodes.getD i default).elem.test.speed = SpeedAccepted then
            (setLastUpdate nodes i now, ResourceUnchanged,
              { r with test := { r.test with lastPassed := now } })
          else
            (setLastUpdate nodes i now, ResourceUnchanged, r))) := by
      unfold Hashring.AddOrUpdate
      rw [hf]
      try simp only
      simp only [hn1]
      try simp only
      by_cases hrep : (nodes.getD i default).elem.oid ≠ r.oid
      · simp only [if_pos hrep, hn2]
      · simp only [if_neg hrep, hn1]
    by_cases hrep : (nodes.getD i default).elem.oid ≠ r.oid
    · by_cases hgone : r.test.state = StateDysfunctional ∨ r.test.speed = SpeedRejected
      · refine ⟨?_, hkeys, ?_, ?_, ?_, ?_⟩
        · simp [hres, hrep, hgone, hc1, hc2, getD_set_self, length_setLastUpdate, hlt, -List.getD_eq_getElem?_getD]
        · simp [hres, hrep, hgone, hn2, hc1, hc2, getD_set_self, length_setLastUpdate, hlt, -List.getD_eq_getElem?_getD]
        · simp [hres, hrep, hgone, hn2, hc1, hc2, getD_set_self, length_setLastUpdate, hlt, -List.getD_eq_getElem?_getD]
        · intro j hj hji
          simp only [hres, if_pos hrep, if_pos hgone]
          rw [getD_set_ne _ _ _ _ hji, setLastUpdate, getD_set_ne _ _ _ _ hji]
        · simp [hres, hrep, hgone, hc1, hc2, getD_set_self, length_setLastUpdate, hlt, -List.getD_eq_getElem?_getD]
      · by_cases hfa : r.test.state = StateFunctional ∧ r.test.speed = SpeedAccepted
        · refine ⟨?_, hkeys, ?_, ?_, ?_, ?_⟩
          · simp [hres, hrep, hgone, hfa, hc1, hc2, getD_set_self, length_setLastUpdate, hlt, -List.getD_eq_getElem?_getD]
          · have hn3 : (((setLastUpdate nodes i now).set i
                ⟨(nodes.getD i default).hashkey, r, now⟩).set i
                ⟨(nodes.getD i default).hashkey,
                  { r with test := { r.test with lastPassed := now } }, now⟩).getD i default
                = ⟨(nodes.getD i default).hashkey,
                    { r with test := { r.test with lastPassed := now } }, now⟩ :=
              getD_set_self _ i _ (by simpa [setLastUpdate] using hlt)
            simp [hres, hrep, hgone, hfa, hn3, hc1, hc2, getD_set_self, length_setLastUpdate, hlt, -List.getD_eq_getElem?_getD]
          · have hn3 : (((setLastUpdate nodes i now).set i
                ⟨(nodes.getD i default).hashkey, r, now⟩).set i
                ⟨(nodes.getD i default).hashkey,
                  { r with test := { r.test with lastPassed := now } }, now⟩).getD i default
                = ⟨(nodes.getD i default).hashkey,
                    { r with test := { r.test with lastPassed := now } }, now⟩ :=
              getD_set_self _ i _ (by simpa [setLastUpdate] using hlt)
            simp [hres, hrep, hgone, hfa, hn3, hc1, hc2, getD_set_self, length_setLastUpdate, hlt, -List.getD_eq_getElem?_getD]
          · intro j hj hji
            simp only [hres, if_pos hrep, if_neg hgone, if_pos hfa]
            rw [getD_set_ne _ _ _ _ hji, getD_set_ne _ _ _ _ hji,
              setLastUpdate, getD_set_ne _ _ _ _ hji]
          · simp [hres, hrep, hgone, hfa, hc1, hc2, getD_set_self, length_setLastUpdate, hlt, -List.getD_eq_getElem?_getD]
        · refine ⟨?_, hkeys, ?_, ?_, ?_, ?_⟩
          · simp [hres, hrep, hgone, hfa, hc1, hc2, getD_set_self, length_setLastUpdate, hlt, -List.getD_eq_getElem?_getD]
          · simp [hres, hrep, hgone, hfa, hn2, hc1, hc2, getD_set_self, length_setLastUpdate, hlt, -List.getD_eq_getElem?_getD]
          · simp [hres, hrep, hgone, hfa, hn2, hc1, hc2, getD_set_self, length_setLastUpdate, hlt, -List.getD_eq_getElem?_getD]
          · intro j hj hji
            simp only [hres, if_pos hrep, if_neg hgone, if_neg hfa]
            rw [getD_set_ne _ _ _ _ hji, setLastUpdate, getD_set_ne _ _ _ _ hji]
          · simp [hres, hrep, hgone, hfa, hc1, hc2, getD_set_self, length_setLastUpdate, hlt, -List.getD_eq_getElem?_getD]
    · by_cases hgone : (nodes.getD i default).elem.test.state = StateDysfunctional ∨
          (nodes.getD i default).elem.test.speed = SpeedRejected
      · refine ⟨?_, hkeys, ?_, ?_, ?_, ?_⟩
        · simp [hres, hrep, hgone, hc1, hc2, getD_set_self, length_setLastUpdate, hlt, -List.getD_eq_getElem?_getD]
        · simp [hres, hrep, hgone, hn1, hc1, hc2, getD_set_self, length_setLastUpdate, hlt, -List.getD_eq_getElem?_getD]
        · simp [hres, hrep, hgone, hn1, hc1, hc2, getD_set_self, length_setLastUpdate, hlt, -List.getD_eq_getElem?_getD]
        · intro j hj hji
          simp only [hres, if_neg hrep, if_pos hgone]
          rw [setLastUpdate, getD_set_ne _ _ _ _ hji]
        · simp [hres, hrep, hgone, hc1, hc2, getD_set_self, length_setLastUpdate, hlt, -List.getD_eq_getElem?_getD]
      · by_cases hfa : (nodes.getD i default).elem.test.state = StateFunctional ∧
            (nodes.getD i default).elem.test.speed = SpeedAccepted
        · refine ⟨?_, hkeys, ?_, ?_, ?_, ?_⟩
          · simp [hres, hrep, hgone, hfa, hc1, hc2, getD_set_self, length_setLastUpdate, hlt, -List.getD_eq_getElem?_getD]
          · simp [hres, hrep, hgone, hfa, hn1, hc1, hc2, getD_set_self, length_setLastUpdate, hlt, -List.getD_eq_getElem?_getD]
          · simp [hres, hrep, hgone, hfa, hn1, hc1, hc2, getD_set_self, length_setLastUpdate, hlt, -List.getD_eq_getElem?_getD]
          · intro j hj hji
            simp only [hres, if_neg hrep, if_neg hgone, if_pos hfa]
            rw [setLastUpdate, getD_set_ne _ _ _ _ hji]
          · simp [hres, hrep, hgone, hfa, hc1, hc2, getD_set_self, length_setLastUpdate, hlt, -List.getD_eq_getElem?_getD]
        · refine ⟨?_, hkeys, ?_, ?_, ?_, ?_⟩
          · simp [hres, hrep, hgone, hfa, hc1, hc2, getD_set_self, length_setLastUpdate, hlt, -List.getD_eq_getElem?_getD]
          · simp [hres, hrep, hgone, hfa, hn1, hc1, hc2, getD_set_self, length_setLastUpdate, hlt, -List.getD_eq_getElem?_getD]
          · simp [hres, hrep, hgone, hfa, hn1, hc1, hc2, getD_set_self, length_setLastUpdate, hlt, -List.getD_eq_getElem?_getD]
          · intro j hj hji
            simp only [hres, if_neg hrep, if_neg hgone, if_neg hfa]
            rw [setLastUpdate, getD_set_ne _ _ _ _ hji]
          · simp [hres, hrep, hgone, hfa, hc1, hc2, getD_set_self, length_setLastUpdate, hlt, -List.getD_eq_getElem?_getD]

/-- C2 (counterexample): the claim's upgrade clause — "whenever after
the call the resource's test result is Dysfunctional or its speed is
Rejected, the returned event is upgraded to ResourceIsGone" — fails for
a freshly inserted resource: adding a Dysfunctional resource to the
empty ring stores it with its Dysfunctional test result yet returns
`ResourceIsNew`, not `ResourceIsGone`; the upgrade only happens when
the uid was already present. -/
theorem addOrUpdate_new_dysfunctional_counterexample :
    (Hashring.AddOrUpdate []
        ⟨"dummy", 5, 1, [], "", 0, ⟨StateDysfunctional, SpeedUntested, none, 0, 0, ""⟩⟩
        7).2.1 = ResourceIsNew
    ∧ (((Hashring.AddOrUpdate []
        ⟨"dummy", 5, 1, [], "", 0, ⟨StateDysfunctional, SpeedUntested, none, 0, 0, ""⟩⟩
        7).1.getD 0 default).elem.test.state = StateDysfunctional)
    ∧ ResourceIsNew ≠ ResourceIsGone := by
  refine ⟨by decide, by decide, by decide⟩

/-- C3 (code bug): `Prune` ranges over the captured slice header while
`remove` shifts the shared backing array, so with three nodes at
`lastUpdate = 0` where the first two have expiry `10`, the third expiry
`100`, and `now = 50`, the loop removes only the first node: the second
node is expired (`10 < 50 - 0`) but stays in the ring, and only the
first resource is returned.  With all three nodes expired the returned
list even contains the third resource twice while the second stays. -/
theorem prune_skips_expired_counterexample :
    (Hashring.Prune
        [⟨1, ⟨"d", 1, 1, [], "", 10, default⟩, 0⟩,
         ⟨2, ⟨"d", 2, 2, [], "", 10, default⟩, 0⟩,
         ⟨3, ⟨"d", 3, 3, [], "", 100, default⟩, 0⟩] 50).1
      = [⟨2, ⟨"d", 2, 2, [], "", 10, default⟩, 0⟩,
         ⟨3, ⟨"d", 3, 3, [], "", 100, default⟩, 0⟩]
    ∧ (Hashring.Prune
        [⟨1, ⟨"d", 1, 1, [], "", 10, default⟩, 0⟩,
         ⟨2, ⟨"d", 2, 2, [], "", 10, default⟩, 0⟩,
         ⟨3, ⟨"d", 3, 3, [], "", 100, default⟩, 0⟩] 50).2
      = [⟨"d", 1, 1, [], "", 10, default⟩]
    ∧ ((10 : Int) < 50 - 0)
    ∧ (Hashring.Prune
        [⟨1, ⟨"d", 1, 1, [], "", 10, default⟩, 0⟩,
         ⟨2, ⟨"d", 2, 2, [], "", 10, default⟩, 0⟩,
         ⟨3, ⟨"d", 3, 3, [], "", 10, default⟩, 0⟩] 50).2
      = [⟨"d", 1, 1, [], "", 10, default⟩,
         ⟨"d", 3, 3, [], "", 10, default⟩,
         ⟨"d", 3, 3, [], "", 10, default⟩] := by
  refine ⟨by decide, by decide, by decide, by decide⟩

/-- C4 (code bug): an onbasca response entry with an empty `error`, a
`null` ratio and `functional = false` reaches the final branch, which
dereferences the `nil` `Ratio` pointer — the Go process panics
(modelled as `none`) instead of comparing the ratio to the threshold
and storing it.  For a non-null ratio the branch behaves as the claim
says: `2 ≥ 1` is accepted and stored, `2 < 5` is rejected and stored. -/
theorem onbasca_nil_ratio_panics :
    testOnbascaEntry 1 ⟨false, none, none, ""⟩ ⟨0, 0, none, 0, 0, ""⟩ = none
    ∧ testOnbascaEntry 1 ⟨false, none, some 2, ""⟩ ⟨0, 0, none, 0, 0, ""⟩
        = some ⟨0, SpeedAccepted, some 2, 0, 0, ""⟩
    ∧ testOnbascaEntry 5 ⟨false, none, some 2, ""⟩ ⟨0, 0, none, 0, 0, ""⟩
        = some ⟨0, SpeedRejected, some 2, 0, 0, ""⟩ := by
  refine ⟨by decide, by decide, by decide⟩

/-- C5 (counterexample): a full-update diff whose `New` map holds a
resource type that is not yet a key of the receiver silently drops that
type: applying it to a map knowing only type `"a"` leaves `"a"` empty
and never creates `"b"`, although `d.New` lists a `"b"` resource. -/
theorem applyDiff_drops_new_type_counterexample :
    RMap.ApplyDiff [("a", [⟨"a", 1, 1, [], "", 0, default⟩])]
        ⟨[("b", [⟨"b", 2, 2, [], "", 0, default⟩])], [], [], true⟩
      = [("a", [])]
    ∧ rget (RMap.ApplyDiff [("a", [⟨"a", 1, 1, [], "", 0, default⟩])]
        ⟨[("b", [⟨"b", 2, 2, [], "", 0, default⟩])], [], [], true⟩) "b" = []
    ∧ rget [("b", [⟨"b", 2, 2, [], "", 0, default⟩])] "b"
        = [⟨"b", 2, 2, [], "", 0, default⟩]
    ∧ ([⟨"b", 2, 2, [], "", 0, default⟩] : List Resource) ≠ [] := by
  refine ⟨by decide, by decide, by decide, by decide⟩

theorem lookup_setAssoc {α : Type} (k : String) (v : α) :
    ∀ (m : List (String × α)) (k2 : String),
      (setAssoc m k v).lookup k2 = if k2 = k then some v else m.lookup k2 := by
  intro m
  induction m with
  | nil =>
    intro k2
    by_cases h : k2 = k
    · simp [setAssoc, List.lookup, h]
    · have hb : (k2 == k) = false := beq_eq_false_iff_ne.mpr h
      simp [setAssoc, List.lookup, h, hb]
  | cons a rest ih =>
    intro k2
    by_cases hak : a.1 = k
    · rw [setAssoc, if_pos hak]
      by_cases h : k2 = k
      · have hb : (k2 == k) = true := beq_iff_eq.mpr h
        simp [List.lookup, h, hb]
      · have hb : (k2 == k) = false := beq_eq_false_iff_ne.mpr h
        have hna : (k2 == a.1) = false :=
          beq_eq_false_iff_ne.mpr (fun hx => h (hx.trans hak))
        simp [List.lookup, h, hb, hna]
    · rw [setAssoc, if_neg hak]
      by_cases h2 : k2 = a.1
      · have hnk : k2 ≠ k := fun hx => hak (h2 ▸ hx)
        have hb : (k2 == a.1) = true := beq_iff_eq.mpr h2
        simp [List.lookup, hb, hnk]
      · have hb : (k2 == a.1) = false := beq_eq_false_iff_ne.mpr h2
        simp [List.lookup, hb, ih k2]

theorem rget_rset (m : RMap) (t : String) (q : List Resource) (s : String) :
    rget (rset m t q) s = if s = t then q else rget m s := by
  unfold rget rset
  rw [lookup_setAssoc]
  by_cases h : s = t
  · simp [h]
  · simp [h]

theorem lookup_none_iff_not_mem_keys {α : Type} (k : String) :
    ∀ m : List (String × α), m.lookup k = none ↔ k ∉ m.map Prod.fst := by
  intro m
  induction m with
  | nil => simp [List.lookup]
  | cons a rest ih =>
    by_cases h : k = a.1
    · have hb : (k == a.1) = true := beq_iff_eq.mpr h
      simp [List.lookup, hb, h]
    · have hb : (k == a.1) = false := beq_eq_false_iff_ne.mpr h
      simp [List.lookup, hb, h, ih]

theorem lookup_some_mem {α : Type} (k : String) (v : α) :
    ∀ m : List (String × α), m.lookup k = some v → (k, v) ∈ m := by
  intro m
  induction m with
  | nil => intro h; simp [List.lookup] at h
  | cons a rest ih =>
    intro h
    by_cases hk : k = a.1
    · have hb : (k == a.1) = true := beq_iff_eq.mpr hk
      simp only [List.lookup, hb, cond_true] at h
      cases h
      rw [hk]
      exact List.mem_cons_self a rest
    · have hb : (k == a.1) = false := beq_eq_false_iff_ne.mpr hk
      simp only [List.lookup, hb, cond_false] at h
      exact List.mem_cons_of_mem a (ih h)

theorem rget_cleared (m : RMap) (t : String) :
    rget (m.map fun p => (p.1, ([] : List Resource))) t = [] := by
  unfold rget
  induction m with
  | nil => simp [List.lookup]
  | cons a rest ih =>
    by_cases h : t = a.1
    · have hb : (t == a.1) = true := beq_iff_eq.mpr h
      simp [List.lookup, hb]
    · have hb : (t == a.1) = false := beq_eq_false_iff_ne.mpr h
      simpa [List.lookup, hb] using ih

theorem foldl_enqueue_append :
    ∀ (rs acc : List Resource),
      (rs.map Resource.uid).Nodup →
      (∀ r ∈ rs, ∀ a ∈ acc, ¬a.uid = r.uid) →
      rs.foldl enqueue acc = acc ++ rs := by
  intro rs
  induction rs with
  | nil => intro acc _ _; simp
  | cons r rest ih =>
    intro acc hnodup hdisj
    simp only [List.map_cons, List.nodup_cons] at hnodup
    have hq : enqueue acc r = acc ++ [r] := by
      unfold enqueue
      rw [if_neg]
      intro hany
      obtain ⟨a, ha, hu⟩ := List.any_eq_true.mp hany
      exact hdisj r (List.mem_cons_self r rest) a ha (by simpa using hu)
    rw [List.foldl_cons, hq, ih (acc ++ [r]) hnodup.2]
    · simp
    · intro r2 hr2 a ha
      rcases List.mem_append.mp ha with hacc | hself
      · exact hdisj r2 (List.mem_cons_of_mem r hr2) a hacc
      · have haeq : a = r := by simpa using hself
        rw [haeq]
        intro heq
        exact hnodup.1 (heq ▸ List.mem_map_of_mem Resource.uid hr2)

theorem rget_innerFold (t : String) :
    ∀ (rs : List Resource) (acc : RMap) (s : String),
      rget (rs.foldl (fun a2 r => rset a2 t (enqueue (rget a2 t) r)) acc) s
        = if s = t then rs.foldl enqueue (rget acc t) else rget acc s := by
  intro rs
  induction rs with
  | nil =>
    intro acc s
    by_cases h : s = t <;> simp [h]
  | cons r rest ih =>
    intro acc s
    rw [List.foldl_cons, List.foldl_cons, ih]
    by_cases h : s = t
    · rw [if_pos h, if_pos h, rget_rset, if_pos rfl]
    · rw [if_neg h, if_neg h, rget_rset, if_neg h]

theorem rget_outerFold :
    ∀ (newlist : RMap), (newlist.map Prod.fst).Nodup →
      ∀ (acc : RMap) (t : String),
        rget (newlist.foldl
          (fun acc p => p.2.foldl (fun a2 r => rset a2 p.1 (enqueue (rget a2 p.1) r)) acc)
          acc) t
        = (match newlist.lookup t with
           | some q => q.foldl enqueue (rget acc t)
           | none => rget acc t) := by
  intro newlist
  induction newlist with
  | nil => intro _ acc t; simp [List.lookup]
  | cons p rest ih =>
    intro hnodup acc t
    simp only [List.map_cons, List.nodup_cons] at hnodup
    rw [List.foldl_cons, ih hnodup.2]
    by_cases h : t = p.1
    · have hb : (t == p.1) = true := beq_iff_eq.mpr h
      have hrest : rest.lookup t = none := by
        rw [lookup_none_iff_not_mem_keys]
        rw [h]
        exact hnodup.1
      rw [hrest]
      simp only [List.lookup, hb]
      rw [rget_innerFold, if_pos h, h]
    · have hb : (t == p.1) = false := beq_eq_false_iff_ne.mpr h
      simp only [List.lookup, hb]
      cases hcase : rest.lookup t with
      | some q => rw [rget_innerFold, if_neg h]
      | none => rw [rget_innerFold, if_neg h]

theorem lookup_map_clear_none (c : List (String × PartitionedHashring)) (t : String)
    (h : c.lookup t = none) :
    (c.map (fun q => (q.1, groupClear q.2))).lookup t = none := by
  rw [lookup_none_iff_not_mem_keys] at h ⊢
  intro hc
  apply h
  have hkeys : (c.map (fun q => (q.1, groupClear q.2))).map Prod.fst = c.map Prod.fst := by
    rw [List.map_map]
    rfl
  rw [hkeys] at hc
  exact hc

theorem collRun_absent_preserved
    (op : PartitionedHashring → Resource → Option PartitionedHashring)
    (t t2 : String) (hne : t2 ≠ t) :
    ∀ (rs : List Resource) (c c1 : List (String × PartitionedHashring)),
      c.lookup t = none → collRun op c t2 rs = some c1 → c1.lookup t = none := by
  intro rs
  induction rs with
  | nil =>
    intro c c1 hlk hrun
    unfold collRun at hrun
    injection hrun with h
    rw [← h]
    exact hlk
  | cons r rest ih =>
    intro c c1 hlk hrun
    unfold collRun at hrun
    cases hl2 : c.lookup t2 with
    | none =>
      simp only [hl2] at hrun
      exact Option.noConfusion hrun
    | some pwd =>
      simp only [hl2] at hrun
      cases hop : op pwd r with
      | none =>
        simp only [hop] at hrun
        exact Option.noConfusion hrun
      | some p1 =>
        simp only [hop] at hrun
        refine ih (setAssoc c t2 p1) c1 ?_ hrun
        rw [lookup_setAssoc, if_neg hne.symm]
        exact hlk

theorem collPhase_absent_none
    (op : PartitionedHashring → Resource → Option PartitionedHashring)
    (t : String) (r : Resource) (rs : List Resource) :
    ∀ (entries : RMap) (c : List (String × PartitionedHashring)),
      (entries.map Prod.fst).Nodup → (t, r :: rs) ∈ entries →
      c.lookup t = none → collPhase op c entries = none := by
  intro entries
  induction entries with
  | nil =>
    intro c _ hmem _
    cases hmem
  | cons e rest ih =>
    intro c hnd hmem hlk
    obtain ⟨t2, rs2⟩ := e
    rw [List.mem_cons] at hmem
    rw [List.map_cons, List.nodup_cons] at hnd
    unfold collPhase
    cases hmem with
    | inl heq =>
      rw [Prod.mk.injEq] at heq
      obtain ⟨ht2, hrs2⟩ := heq
      subst ht2
      subst hrs2
      have hrunnone : collRun op c t (r :: rs) = none := by
        unfold collRun
        rw [hlk]
      rw [hrunnone]
    | inr hmem2 =>
      have hne : t2 ≠ t := by
        intro hc
        subst hc
        have hm : t2 ∈ List.map Prod.fst rest := List.mem_map_of_mem Prod.fst hmem2
        exact hnd.1 hm
      cases hrun : collRun op c t2 rs2 with
      | none => rfl
      | some c1 =>
        exact ih c1 hnd.2 hmem2 (collRun_absent_preserved op t t2 hne rs2 c c1 hlk hrun)

/-- C5 (amended): applying a full-update diff (with empty `Changed` and
`Gone` and duplicate-free `New` queues) discards the receiver's prior
view, but the replacement reaches only the resource types the receiver
already knows.  On a `ResourceMap`, each pre-existing type afterwards
holds exactly the resources `d.New` lists for it (empty when `d.New`
has none), while types appearing only in `d.New` are silently dropped.
On a `Collection`, the full update clears the rings of every existing
type (keeping relations and stencil), and a `New` entry for a type
absent from the collection makes the run panic on the `nil` resource
group (modelled as `none`) as soon as it lists a resource, rather than
dropping or adding the type. -/
theorem applyDiff_full_update_spec (m : RMap) (d : ResourceDiff)
    (hfull : d.fullUpdate = true) (hch : d.changed = []) (hgo : d.gone = [])
    (hkeys : (d.new.map Prod.fst).Nodup)
    (hq : ∀ p ∈ d.new, (p.2.map Resource.uid).Nodup) :
    RMap.ApplyDiff m d = m.map (fun p => (p.1, rget d.new p.1))
    ∧ (∀ (cooked : Nat → Nat) (fuel : Nat) (c : List (String × PartitionedHashring))
        (now : Int) (t : String) (r : Resource) (rs : List Resource),
        (t, r :: rs) ∈ d.new → c.lookup t = none →
        Collection.ApplyDiff cooked fuel c d now = none)
    ∧ (∀ (cooked : Nat → Nat) (fuel : Nat) (c : List (String × PartitionedHashring))
        (now : Int), d.new = [] →
        Collection.ApplyDiff cooked fuel c d now
          = some (c.map (fun q => (q.1, groupClear q.2)))) := by
  refine ⟨?_, ?_, ?_⟩
  · unfold RMap.ApplyDiff
    rw [hfull, hch, hgo]
    simp only [eq_self_iff_true, if_true, List.foldl_nil]
    apply List.map_congr_left
    intro p hp
    rw [rget_outerFold d.new hkeys (m.map fun p => (p.1, [])) p.1]
    rw [rget_cleared]
    cases hcase : d.new.lookup p.1 with
    | some q =>
      dsimp only
      rw [foldl_enqueue_append q [] (hq _ (lookup_some_mem _ _ _ hcase))
        (by intro r _ a ha; cases ha), List.nil_append]
      unfold rget
      rw [hcase]
      rfl
    | none =>
      dsimp only
      unfold rget
      rw [hcase]
      rfl
  · intro cooked fuel c now t r rs hmem hlk
    unfold Collection.ApplyDiff
    rw [hfull]
    simp only [eq_self_iff_true, if_true]
    rw [collPhase_absent_none _ t r rs d.new _ hkeys hmem (lookup_map_clear_none c t hlk)]
  · intro cooked fuel c now hnew
    unfold Collection.ApplyDiff
    rw [hfull, hch, hgo, hnew]
    simp only [eq_self_iff_true, if_true]
    rfl

/-! ### Stencil lemmas (claims C1 and C6) -/

theorem mem_buildStencilAux_name (props : List (String × Nat)) :
    ∀ (ks : List String) (i : Nat) (iv : Intv),
      iv ∈ buildStencilAux props ks i → iv.name ∈ ks := by
  intro ks
  induction ks with
  | nil => intro i iv h; cases h
  | cons k rest ih =>
    intro i iv h
    rw [buildStencilAux, List.mem_cons] at h
    rcases h with h | h
    · rw [h]
      exact List.mem_cons_self k rest
    · exact List.mem_cons_of_mem k (ih _ iv h)

theorem buildStencilAux_hi_le (props : List (String × Nat)) :
    ∀ (ks : List String) (i : Nat) (iv : Intv),
      iv ∈ buildStencilAux props ks i →
      iv.hi ≤ (i : Int) + ((ks.map fun k => (props.lookup k).getD 0).sum : Int) - 1 := by
  intro ks
  induction ks with
  | nil => intro i iv h; cases h
  | cons k rest ih =>
    intro i iv h
    rw [buildStencilAux, List.mem_cons] at h
    rcases h with h | h
    · rw [h]
      simp only [List.map_cons, List.sum_cons, Nat.cast_add]
      have h0 : (0 : Int) ≤ ((rest.map fun k => (props.lookup k).getD 0).sum : Int) :=
        Int.natCast_nonneg _
      omega
    · have hih := ih _ iv h
      simp only [List.map_cons, List.sum_cons, Nat.cast_add] at hih ⊢
      omega

theorem buildStencilAux_cover (props : List (String × Nat)) :
    ∀ (ks : List String) (i : Nat),
      (∀ k ∈ ks, 1 ≤ (props.lookup k).getD 0) →
      ∀ n : Int, (i : Int) ≤ n →
        n ≤ (i : Int) + ((ks.map fun k => (props.lookup k).getD 0).sum : Int) - 1 →
        ∃ iv ∈ buildStencilAux props ks i, iv.lo ≤ n ∧ n ≤ iv.hi := by
  intro ks
  induction ks with
  | nil =>
    intro i _ n hlo hhi
    simp only [List.map_nil, List.sum_nil, Nat.cast_zero] at hhi
    omega
  | cons k rest ih =>
    intro i hw n hlo hhi
    by_cases hcase : n ≤ (i : Int) + (((props.lookup k).getD 0 : Nat) : Int) - 1
    · refine ⟨⟨(i : Int), (i : Int) + (((props.lookup k).getD 0 : Nat) : Int) - 1, k⟩,
        ?_, hlo, hcase⟩
      rw [buildStencilAux]
      exact List.mem_cons_self _ _
    · have hw1 : 1 ≤ (props.lookup k).getD 0 := hw k (List.mem_cons_self k rest)
      obtain ⟨iv, hmem, hiv⟩ := ih (i + (props.lookup k).getD 0)
        (fun k2 hk2 => hw k2 (List.mem_cons_of_mem k hk2)) n
        (by push_cast; omega)
        (by
          simp only [List.map_cons, List.sum_cons, Nat.cast_add] at hhi ⊢
          omega)
      refine ⟨iv, ?_, hiv⟩
      rw [buildStencilAux]
      exact List.mem_cons_of_mem _ hmem

theorem foldlMax_ge :
    ∀ (st : List Intv) (a : Int),
      a ≤ st.foldl (fun m iv => if m < iv.hi then iv.hi else m) a := by
  intro st
  induction st with
  | nil => intro a; simp
  | cons iv rest ih =>
    intro a
    rw [List.foldl_cons]
    refine le_trans ?_ (ih _)
    by_cases h : a < iv.hi
    · rw [if_pos h]; omega
    · rw [if_neg h]

theorem foldlMax_le :
    ∀ (st : List Intv) (a B : Int), a ≤ B → (∀ iv ∈ st, iv.hi ≤ B) →
      st.foldl (fun m iv => if m < iv.hi then iv.hi else m) a ≤ B := by
  intro st
  induction st with
  | nil => intro a B h _; simpa using h
  | cons iv rest ih =>
    intro a B h hall
    rw [List.foldl_cons]
    refine ih _ B ?_ (fun iv2 h2 => hall iv2 (List.mem_cons_of_mem iv h2))
    by_cases hc : a < iv.hi
    · rw [if_pos hc]; exact hall iv (List.mem_cons_self _ _)
    · rw [if_neg hc]; exact h

theorem goInt31n_loop_lt (n maxv : Nat) (hn : 0 < n) :
    ∀ (fuel : Nat) (s : RngState) (v : Nat),
      int31nLoop n maxv s fuel = some v → v < n := by
  intro fuel
  induction fuel with
  | zero => intro s v h; cases h
  | succ f ih =>
    intro s v h
    rw [int31nLoop] at h
    by_cases hc : maxv < (rngInt31 s).1
    · rw [if_pos hc] at h
      exact ih _ v h
    · rw [if_neg hc] at h
      cases h
      exact Nat.mod_lt _ hn

theorem goInt31n_lt (s : RngState) (n fuel : Nat) (hn : 1 ≤ n) :
    ∀ v : Nat, goInt31n s n fuel = some v → v < n := by
  intro v h
  rw [goInt31n] at h
  by_cases hc : n &&& (n - 1) = 0
  · rw [if_pos hc] at h
    cases h
    have hle : (rngInt31 s).1 &&& (n - 1) ≤ n - 1 := Nat.and_le_right
    omega
  · rw [if_neg hc] at h
    exact goInt31n_loop_lt n _ (by omega) fuel s v h

theorem getPartitionName_seed_congr (cooked : Nat → Nat) (fuel : Nat) (st : List Intv)
    (u1 u2 : Nat) (h : seedReduce (int64OfUid u1) = seedReduce (int64OfUid u2)) :
    Stencil.GetPartitionName cooked fuel st u1
      = Stencil.GetPartitionName cooked fuel st u2 := by
  unfold Stencil.GetPartitionName goIntn goRngSeed
  rw [h]

theorem lookup_isSome_of_mem_keys {α : Type} (m : List (String × α)) (k : String)
    (h : k ∈ m.map Prod.fst) : (m.lookup k).isSome := by
  rw [← Option.ne_none_iff_isSome]
  intro hc
  exact (lookup_none_iff_not_mem_keys k m).mp hc h

theorem relFold_none (p : PartitionedHashring) :
    ∀ (ids : List String) (acc : String),
      (∀ rid ∈ ids, p.relations.lookup rid = none) →
      ids.foldl
        (fun acc rid =>
          match p.relations.lookup rid with
          | some name => if (p.partitions.lookup name).isSome then name else acc
          | none => acc)
        acc = acc := by
  intro ids
  induction ids with
  | nil => intro acc _; rfl
  | cons rid rest ih =>
    intro acc hnone
    rw [List.foldl_cons]
    have h1 : p.relations.lookup rid = none := hnone rid (List.mem_cons_self _ _)
    rw [h1]
    exact ih acc (fun r2 h2 => hnone r2 (List.mem_cons_of_mem rid h2))

/-- C1 (counterexample): the claim-side formula — assignment to the
interval containing `Uid(r) mod (upper_end+1)` — disagrees with the
code for every possible value of the abstract PRNG constants: with
proportions `{a:1, b:1}` the code seeds the generator with the uid and
so assigns uids `1` and `2^31` (equal seeds modulo `2^31 - 1`) to the
same partition, while the mod-formula assigns `1` to `"b"` and `2^31`
to `"a"`. -/
theorem stencil_mod_assignment_counterexample :
    ¬ ∃ (cooked : Nat → Nat) (fuel : Nat),
        ∀ uid : Nat, uid < 2 ^ 64 →
          Stencil.GetPartitionName cooked fuel (buildStencil [("a", 1), ("b", 1)]) uid
            = specStencilAssign (buildStencil [("a", 1), ("b", 1)]) uid := by
  rintro ⟨cooked, fuel, hall⟩
  have h1 := hall 1 (by norm_num)
  have h2 := hall (2 ^ 31) (by norm_num)
  have hseed : seedReduce (int64OfUid 1) = seedReduce (int64OfUid (2 ^ 31)) := by decide
  have hcode := getPartitionName_seed_congr cooked fuel
    (buildStencil [("a", 1), ("b", 1)]) 1 (2 ^ 31) hseed
  rw [h1, h2] at hcode
  have hs1 : specStencilAssign (buildStencil [("a", 1), ("b", 1)]) 1 = some "b" := by decide
  have hs2 : specStencilAssign (buildStencil [("a", 1), ("b", 1)]) (2 ^ 31)
      = some "a" := by decide
  rw [hs1, hs2] at hcode
  exact absurd hcode (by decide)

/-- C1 (amended): for a resource with an empty declared distributor and
no relation identifier recorded in the relations table, the partitioned
hashring delegates to `stencil.GetPartitionName`, which draws
`n = rand.Intn(upper_end+1)` from Go's global PRNG seeded with
`int64(Uid(r))` — not `Uid(r) mod (upper_end+1)` — and returns the name
of the stencil interval containing `n`; the intervals are the
consecutive blocks of the lexicographically sorted proportion keys, and
the assignment depends on the uid only through its seed reduced modulo
`2^31 - 1`. -/
theorem stencil_assignment_spec (cooked : Nat → Nat) (fuel : Nat)
    (props : List (String × Nat)) (p : PartitionedHashring) (r : Resource)
    (hst : p.stencil = buildStencil props)
    (hw : ∀ q ∈ props, 1 ≤ q.2)
    (hd : r.distributor = "")
    (hrel : ∀ rid ∈ r.relationIds, p.relations.lookup rid = none) :
    (wdGetPartitionName cooked fuel p r
      = Stencil.GetPartitionName cooked fuel (buildStencil props) r.uid)
    ∧ (∀ (ue : Int) (n : Nat),
        Stencil.GetUpperEnd (buildStencil props) = some ue →
        goIntn cooked (int64OfUid r.uid) (ue + 1).toNat fuel = some n →
        ∃ iv ∈ buildStencil props, iv.lo ≤ (n : Int) ∧ (n : Int) ≤ iv.hi ∧
          Stencil.GetPartitionName cooked fuel (buildStencil props) r.uid = some iv.name)
    ∧ (∀ u2 : Nat, seedReduce (int64OfUid r.uid) = seedReduce (int64OfUid u2) →
        Stencil.GetPartitionName cooked fuel (buildStencil props) r.uid
          = Stencil.GetPartitionName cooked fuel (buildStencil props) u2) := by
  refine ⟨?_, ?_, ?_⟩
  · unfold wdGetPartitionName
    rw [hd, if_neg (by simp)]
    unfold phGetPartitionName
    rw [relFold_none p r.relationIds "" hrel, if_pos rfl, hst]
  · intro ue n hue hgo
    set ks := List.insertionSort (fun a b : String => goStringLess b a = false)
      (props.map Prod.fst) with hks
    have hkw : ∀ k ∈ ks, 1 ≤ (props.lookup k).getD 0 := by
      intro k hk
      have hmem : k ∈ props.map Prod.fst :=
        (List.perm_insertionSort _ _).mem_iff.mp hk
      have hsome := lookup_isSome_of_mem_keys props k hmem
      obtain ⟨v, hv⟩ := Option.isSome_iff_exists.mp hsome
      rw [hv]
      exact hw (k, v) (lookup_some_mem k v props hv)
    have hne : ¬(buildStencil props).isEmpty := by
      intro hc
      unfold Stencil.GetUpperEnd at hue
      rw [if_pos hc] at hue
      cases hue
    have hufold : ue = (buildStencil props).foldl
        (fun m iv => if m < iv.hi then iv.hi else m) 0 := by
      unfold Stencil.GetUpperEnd at hue
      rw [if_neg hne] at hue
      cases hue
      rfl
    have hue0 : 0 ≤ ue := hufold ▸ foldlMax_ge _ 0
    have htn : (((ue + 1).toNat : Int)) = ue + 1 := Int.toNat_of_nonneg (by omega)
    have hnlt : n < (ue + 1).toNat :=
      goInt31n_lt _ _ fuel (by omega) n hgo
    have hnle : (n : Int) ≤ ue := by omega
    have hksne : ks ≠ [] := by
      intro hc
      apply hne
      unfold buildStencil
      rw [← hks, hc]
      rfl
    have hT1 : 1 ≤ (ks.map fun k => (props.lookup k).getD 0).sum := by
      cases hcase : ks with
      | nil => exact absurd hcase hksne
      | cons k rest =>
        have := hkw k (by rw [hcase]; exact List.mem_cons_self _ _)
        rw [List.map_cons, List.sum_cons]
        omega
    have hub : ∀ iv ∈ buildStencil props,
        iv.hi ≤ ((ks.map fun k => (props.lookup k).getD 0).sum : Int) - 1 := by
      intro iv hiv
      have := buildStencilAux_hi_le props ks 0 iv (by
        unfold buildStencil at hiv
        rw [← hks] at hiv
        exact hiv)
      simpa using this
    have hueT : ue ≤ ((ks.map fun k => (props.lookup k).getD 0).sum : Int) - 1 := by
      rw [hufold]
      exact foldlMax_le _ 0 _ (by
        have : (1 : Int) ≤ ((ks.map fun k => (props.lookup k).getD 0).sum : Int) := by
          exact_mod_cast hT1
        omega) hub
    obtain ⟨iv, hmem, hlo2, hhi2⟩ := buildStencilAux_cover props ks 0 hkw (n : Int)
      (by omega) (by simp only [Nat.cast_zero]; omega)
    have hmem2 : iv ∈ buildStencil props := by
      unfold buildStencil
      rw [← hks]
      exact hmem
    cases hfind : Stencil.FindByValue (buildStencil props) (n : Int) with
    | none =>
      exfalso
      unfold Stencil.FindByValue at hfind
      have := List.find?_eq_none.mp hfind iv hmem2
      simp only [Bool.and_eq_true, decide_eq_true_eq] at this
      exact this ⟨hlo2, hhi2⟩
    | some iv0 =>
      have hpred := List.find?_some hfind
      simp only [Bool.and_eq_true, decide_eq_true_eq] at hpred
      refine ⟨iv0, List.mem_of_find?_eq_some hfind, hpred.1, hpred.2, ?_⟩
      simp only [Stencil.GetPartitionName, hue, hgo, hfind]
  · intro u2 h
    exact getPartitionName_seed_congr cooked fuel (buildStencil props) r.uid u2 h

theorem lookup_foldSet_not_mem (nm : String) :
    ∀ (ids : List String) (m : List (String × String)) (rid0 : String), rid0 ∉ ids →
      (ids.foldl (fun m2 rid => setAssoc m2 rid nm) m).lookup rid0 = m.lookup rid0 := by
  intro ids
  induction ids with
  | nil => intro m rid0 _; rfl
  | cons rid rest ih =>
    intro m rid0 h
    rw [List.foldl_cons, ih _ rid0 (fun hc => h (List.mem_cons_of_mem rid hc)),
      lookup_setAssoc, if_neg (fun hc => h (by rw [hc]; exact List.mem_cons_self rid rest))]

theorem lookup_foldSet_mem (nm : String) :
    ∀ (ids : List String) (m : List (String × String)) (rid0 : String), rid0 ∈ ids →
      (ids.foldl (fun m2 rid => setAssoc m2 rid nm) m).lookup rid0 = some nm := by
  intro ids
  induction ids with
  | nil => intro m rid0 h; cases h
  | cons rid rest ih =>
    intro m rid0 h
    rw [List.foldl_cons]
    by_cases hr : rid0 ∈ rest
    · exact ih _ rid0 hr
    · have hr0 : rid0 = rid := by
        rcases List.mem_cons.mp h with h1 | h1
        · exact h1
        · exact absurd h1 hr
      rw [lookup_foldSet_not_mem nm rest _ rid0 hr, lookup_setAssoc, if_pos hr0]

theorem relFold_stays (p : PartitionedHashring) (P : String)
    (hall : ∀ rid : String, p.relations.lookup rid = none ∨ p.relations.lookup rid = some P) :
    ∀ ids : List String,
      ids.foldl
        (fun acc rid =>
          match p.relations.lookup rid with
          | some name => if (p.partitions.lookup name).isSome then name else acc
          | none => acc)
        P = P := by
  intro ids
  induction ids with
  | nil => rfl
  | cons rid rest ih =>
    rw [List.foldl_cons]
    rcases hall rid with h | h
    · rw [h]
      exact ih
    · rw [h]
      by_cases hp : ((p.partitions.lookup P).isSome : Prop)
      · simp only [hp, if_true]
        exact ih
      · simp only [hp, if_false]
        exact ih

theorem relFold_finds (p : PartitionedHashring) (P : String)
    (hall : ∀ rid : String, p.relations.lookup rid = none ∨ p.relations.lookup rid = some P)
    (hpart : (p.partitions.lookup P).isSome) :
    ∀ (ids : List String) (acc : String), (∃ rid ∈ ids, p.relations.lookup rid = some P) →
      ids.foldl
        (fun acc rid =>
          match p.relations.lookup rid with
          | some name => if (p.partitions.lookup name).isSome then name else acc
          | none => acc)
        acc = P := by
  intro ids
  induction ids with
  | nil => rintro acc ⟨rid, hmem, -⟩; cases hmem
  | cons rid rest ih =>
    rintro acc ⟨rid0, hmem, hsome⟩
    rw [List.foldl_cons]
    rcases hall rid with h | h
    · rw [h]
      refine ih acc ⟨rid0, ?_, hsome⟩
      rcases List.mem_cons.mp hmem with h1 | h1
      · rw [h1] at hsome
        rw [hsome] at h
        cases h
      · exact h1
    · simp only [h, hpart, if_true]
      by_cases hrest : ∃ rid2 ∈ rest, p.relations.lookup rid2 = some P
      · exact ih P hrest
      · exact relFold_stays p P hall rest

theorem stencil_name_cases (cooked : Nat → Nat) (fuel : Nat) (st : List Intv)
    (uid : Nat) (s : String)
    (h : Stencil.GetPartitionName cooked fuel st uid = some s) :
    s = "" ∨ ∃ iv ∈ st, s = iv.name := by
  unfold Stencil.GetPartitionName at h
  cases hue : Stencil.GetUpperEnd st with
  | none =>
    simp only [hue] at h
    injection h with h2
    left
    exact h2.symm
  | some ue =>
    simp only [hue] at h
    cases hgo : goIntn cooked (int64OfUid uid) (ue + 1).toNat fuel with
    | none =>
      simp only [hgo] at h
      exact Option.noConfusion h
    | some n =>
      simp only [hgo] at h
      cases hfind : Stencil.FindByValue st (n : Int) with
      | none =>
        simp only [hfind] at h
        injection h with h2
        left
        exact h2.symm
      | some iv =>
        simp only [hfind] at h
        injection h with h2
        right
        exact ⟨iv, List.mem_of_find?_eq_some hfind, h2.symm⟩

theorem wdAddRel_partitions (p : PartitionedHashring) (r : Resource) (nm : String) :
    (wdAddRelationIdentifiers p r nm).partitions = p.partitions := by
  unfold wdAddRelationIdentifiers phAddRelationIdentifiers
  by_cases h : nm = "none"
  · rw [if_pos h]
  · rw [if_neg h]

theorem wdAddRel_relations (p : PartitionedHashring) (r : Resource) (nm : String)
    (h : nm ≠ "none") :
    (wdAddRelationIdentifiers p r nm).relations
      = r.relationIds.foldl (fun m2 rid => setAssoc m2 rid nm) p.relations := by
  unfold wdAddRelationIdentifiers phAddRelationIdentifiers
  rw [if_neg h]

theorem wdAddRel_lookup (p : PartitionedHashring) (r : Resource) (nm : String)
    (h : nm ≠ "none") :
    ∀ rid ∈ r.relationIds,
      ((wdAddRelationIdentifiers p r nm).relations).lookup rid = some nm := by
  intro rid hrid
  rw [wdAddRel_relations p r nm h]
  exact lookup_foldSet_mem nm r.relationIds p.relations rid hrid

theorem mem_keys_Add_preserved {nodes : List Hashnode} (r : Resource) (now : Int)
    {k : Nat} (hk : k ∈ nodeKeys nodes) :
    k ∈ nodeKeys (Hashring.Add nodes r now).1 := by
  unfold Hashring.Add
  cases hf : Hashring.findUid nodes r.uid with
  | some i =>
    simp only
    rw [nodeKeys_setLastUpdate]
    exact hk
  | none =>
    simp only
    have hperm : List.Perm (nodeKeys (sortNodes (nodes ++ [⟨r.uid, r, now⟩])))
        (nodeKeys (nodes ++ [⟨r.uid, r, now⟩])) :=
      List.Perm.map (fun nd : Hashnode => nd.hashkey) (List.perm_insertionSort _ _)
    refine hperm.mem_iff.mpr ?_
    rw [nodeKeys, List.map_append]
    exact List.mem_append_left _ hk

theorem mem_keys_AddOrUpdate {nodes : List Hashnode} (r : Resource) (now : Int)
    (hs : SortedRing nodes) :
    r.uid ∈ nodeKeys (Hashring.AddOrUpdate nodes r now).1 := by
  cases hf : Hashring.findUid nodes r.uid with
  | some i =>
    obtain ⟨hi, hlt, hkey⟩ := findUid_some_spec (pairwise_le_of_sortedRing hs) hf
    rw [nodeKeys_addOrUpdate_some hf]
    rw [List.getD_eq_getElem nodes default hlt] at hkey
    exact hkey ▸ List.mem_map_of_mem (·.hashkey) (List.getElem_mem hlt)
  | none =>
    unfold Hashring.AddOrUpdate
    rw [hf]
    simp only
    have hperm : List.Perm (nodeKeys (sortNodes (nodes ++ [⟨r.uid, r, now⟩])))
        (nodeKeys (nodes ++ [⟨r.uid, r, now⟩])) :=
      List.Perm.map (fun nd : Hashnode => nd.hashkey) (List.perm_insertionSort _ _)
    refine hperm.mem_iff.mpr ?_
    rw [nodeKeys, List.map_append]
    simp

theorem mem_keys_AddOrUpdate_preserved {nodes : List Hashnode} (r : Resource) (now : Int)
    {k : Nat} (hk : k ∈ nodeKeys nodes) :
    k ∈ nodeKeys (Hashring.AddOrUpdate nodes r now).1 := by
  cases hf : Hashring.findUid nodes r.uid with
  | some i =>
    rw [nodeKeys_addOrUpdate_some hf]
    exact hk
  | none =>
    unfold Hashring.AddOrUpdate
    rw [hf]
    simp only
    have hperm : List.Perm (nodeKeys (sortNodes (nodes ++ [⟨r.uid, r, now⟩])))
        (nodeKeys (nodes ++ [⟨r.uid, r, now⟩])) :=
      List.Perm.map (fun nd : Hashnode => nd.hashkey) (List.perm_insertionSort _ _)
    refine hperm.mem_iff.mpr ?_
    rw [nodeKeys, List.map_append]
    exact List.mem_append_left _ hk

theorem newPartitionedWD_lookup_cases (props : List (String × Nat)) (P : String)
    (v : List Hashnode)
    (h : ((newPartitionedWD props).partitions).lookup P = some v) :
    (P ∈ props.map Prod.fst ∨ P = "none") ∧ v = [] := by
  have hmem := lookup_some_mem P v _ h
  unfold newPartitionedWD at hmem
  simp only at hmem
  rcases List.mem_append.mp hmem with h1 | h1
  · obtain ⟨q, hq, heq⟩ := List.mem_map.mp h1
    cases heq
    exact ⟨Or.inl (List.mem_map_of_mem Prod.fst hq), rfl⟩
  · simp only [List.mem_singleton, Prod.mk.injEq] at h1
    exact ⟨Or.inr h1.1, h1.2⟩

/-- C6 (amended): in a freshly created partitioned hashring (with
distributors), whose relation table is empty, the first resource
inserted — via `Add` or `AddOrUpdate` — with an empty declared
distributor lands in a partition `P` other than `"none"`, every one of
its relation identifiers is recorded with `P`, and any second resource
sharing one of them (empty distributor, any uid, via `Add` or
`AddOrUpdate`) is routed to the same partition `P`; and, in general,
insertion into any partition other than `"none"` records every
relation identifier of the inserted resource with that partition's
name.  (The claim's unrestricted form fails on rings whose relation
table already maps another identifier of the second resource
elsewhere; see the counterexample.) -/
theorem colocation_spec (cooked : Nat → Nat) (fuel : Nat)
    (props : List (String × Nat)) (r1 r2 : Resource) (now1 now2 : Int)
    (p1 : PartitionedHashring) (e1 : Bool) (ev1 : Nat)
    (hnone : "none" ∉ props.map Prod.fst)
    (hempty : "" ∉ props.map Prod.fst)
    (hd1 : r1.distributor = "") (hd2 : r2.distributor = "")
    (hshare : ∃ rid, rid ∈ r1.relationIds ∧ rid ∈ r2.relationIds)
    (hadd : wdAdd cooked fuel (newPartitionedWD props) r1 now1 = some (p1, e1)
      ∨ wdAddOrUpdate cooked fuel (newPartitionedWD props) r1 now1 = some (p1, ev1)) :
    (∃ P, wdGetPartitionName cooked fuel (newPartitionedWD props) r1 = some P
      ∧ P ≠ "none"
      ∧ (∀ rid ∈ r1.relationIds, p1.relations.lookup rid = some P)
      ∧ wdGetPartitionName cooked fuel p1 r2 = some P
      ∧ (∀ (p2 : PartitionedHashring) (e2 : Bool),
          wdAdd cooked fuel p1 r2 now2 = some (p2, e2) →
          ∃ ring, p2.partitions.lookup P = some ring ∧
            r1.uid ∈ nodeKeys ring ∧ r2.uid ∈ nodeKeys ring)
      ∧ (∀ (p2 : PartitionedHashring) (ev : Nat),
          wdAddOrUpdate cooked fuel p1 r2 now2 = some (p2, ev) →
          ∃ ring, p2.partitions.lookup P = some ring ∧
            r1.uid ∈ nodeKeys ring ∧ r2.uid ∈ nodeKeys ring))
    ∧ (∀ (q : PartitionedHashring) (r3 : Resource) (nm : String), nm ≠ "none" →
        ∀ rid ∈ r3.relationIds,
          ((wdAddRelationIdentifiers q r3 nm).relations).lookup rid = some nm) := by
  refine ⟨?_, fun q r3 nm hnm => wdAddRel_lookup q r3 nm hnm⟩
  have hshape : ∃ (P : String) (ring0 ring1 : List Hashnode),
      wdGetPartitionName cooked fuel (newPartitionedWD props) r1 = some P
      ∧ ((wdAddRelationIdentifiers (newPartitionedWD props) r1 P).partitions).lookup P
          = some ring0
      ∧ (ring0 = [] → SortedRing ring1 ∧ r1.uid ∈ nodeKeys ring1)
      ∧ p1.relations = (wdAddRelationIdentifiers (newPartitionedWD props) r1 P).relations
      ∧ p1.partitions
          = setAssoc ((wdAddRelationIdentifiers (newPartitionedWD props) r1 P).partitions)
              P ring1 := by
    have hs0 : SortedRing ([] : List Hashnode) := List.Pairwise.nil
    rcases hadd with hadd | hadd
    · unfold wdAdd at hadd
      cases hname : wdGetPartitionName cooked fuel (newPartitionedWD props) r1 with
      | none =>
        simp only [hname] at hadd
        exact Option.noConfusion hadd
      | some P =>
        simp only [hname] at hadd
        cases hlook : ((wdAddRelationIdentifiers (newPartitionedWD props) r1 P).partitions).lookup P with
        | none =>
          simp only [hlook] at hadd
          exact Option.noConfusion hadd
        | some ring0 =>
          simp only [hlook] at hadd
          injection hadd with hadd2
          rw [Prod.mk.injEq] at hadd2
          obtain ⟨hp1, -⟩ := hadd2
          refine ⟨P, ring0, (Hashring.Add ring0 r1 now1).1, rfl, hlook, ?_, ?_, ?_⟩
          · intro h0
            rw [h0]
            exact ⟨sortedRing_Add r1 now1 hs0, mem_keys_Add r1 now1 hs0⟩
          · rw [← hp1]
          · rw [← hp1]
    · unfold wdAddOrUpdate at hadd
      cases hname : wdGetPartitionName cooked fuel (newPartitionedWD props) r1 with
      | none =>
        simp only [hname] at hadd
        exact Option.noConfusion hadd
      | some P =>
        simp only [hname] at hadd
        cases hlook : ((wdAddRelationIdentifiers (newPartitionedWD props) r1 P).partitions).lookup P with
        | none =>
          simp only [hlook] at hadd
          exact Option.noConfusion hadd
        | some ring0 =>
          simp only [hlook] at hadd
          injection hadd with hadd2
          rw [Prod.mk.injEq] at hadd2
          obtain ⟨hp1, -⟩ := hadd2
          refine ⟨P, ring0, (Hashring.AddOrUpdate ring0 r1 now1).1, rfl, hlook, ?_, ?_, ?_⟩
          · intro h0
            rw [h0]
            exact ⟨sortedRing_AddOrUpdate r1 now1 hs0, mem_keys_AddOrUpdate r1 now1 hs0⟩
          · rw [← hp1]
          · rw [← hp1]
  obtain ⟨P, ring0, ring1, hname, hlook, hmk, hrelcomp, hpartcomp⟩ := hshape
  have hname0 := hname
  have hfreshlook : ((newPartitionedWD props).partitions).lookup P = some ring0 := by
    rw [← wdAddRel_partitions (newPartitionedWD props) r1 P]
    exact hlook
  obtain ⟨hPcase, hring0⟩ := newPartitionedWD_lookup_cases props P ring0 hfreshlook
  obtain ⟨hsring1, hr1mem⟩ := hmk hring0
  have hdeleg : wdGetPartitionName cooked fuel (newPartitionedWD props) r1
      = Stencil.GetPartitionName cooked fuel (newPartitionedWD props).stencil r1.uid := by
    unfold wdGetPartitionName
    rw [hd1, if_neg (by simp)]
    unfold phGetPartitionName
    rw [relFold_none (newPartitionedWD props) r1.relationIds ""
      (fun rid _ => rfl), if_pos rfl]
  rw [hdeleg] at hname
  have hstencilnames := stencil_name_cases cooked fuel _ r1.uid P hname
  have hPprops : P ∈ props.map Prod.fst := by
    rcases hstencilnames with hcase | ⟨iv, hiv, hPiv⟩
    · rcases hPcase with hc | hc
      · rw [hcase] at hc
        exact absurd hc hempty
      · rw [hcase] at hc
        exact absurd hc (by decide)
    · have hiv2 : iv ∈ buildStencilAux props
          (List.insertionSort (fun a b : String => goStringLess b a = false)
            (props.map Prod.fst)) 0 := hiv
      have hnm := mem_buildStencilAux_name props _ _ _ hiv2
      rw [hPiv]
      exact (List.perm_insertionSort _ _).mem_iff.mp hnm
  have hPnone : P ≠ "none" := fun hc => hnone (hc ▸ hPprops)
  have hPempty : P ≠ "" := fun hc => hempty (hc ▸ hPprops)
  have hrel1 : p1.relations
      = r1.relationIds.foldl (fun m2 rid => setAssoc m2 rid P) [] := by
    rw [hrelcomp, wdAddRel_relations _ _ _ hPnone]
    rfl
  have hrec : ∀ rid ∈ r1.relationIds, p1.relations.lookup rid = some P := by
    intro rid hrid
    rw [hrel1]
    exact lookup_foldSet_mem P _ [] rid hrid
  have hall : ∀ rid : String,
      p1.relations.lookup rid = none ∨ p1.relations.lookup rid = some P := by
    intro rid
    by_cases h : rid ∈ r1.relationIds
    · exact Or.inr (hrec rid h)
    · left
      rw [hrel1, lookup_foldSet_not_mem P _ [] rid h]
      rfl
  have hp1look : p1.partitions.lookup P = some ring1 := by
    rw [hpartcomp, lookup_setAssoc, if_pos rfl]
  have hname2 : wdGetPartitionName cooked fuel p1 r2 = some P := by
    unfold wdGetPartitionName
    rw [hd2, if_neg (by simp)]
    unfold phGetPartitionName
    obtain ⟨s, hs1, hs2⟩ := hshare
    rw [relFold_finds p1 P hall (by rw [hp1look]; rfl) r2.relationIds ""
      ⟨s, hs2, hrec s hs1⟩]
    rw [if_neg hPempty]
  refine ⟨P, hname0, hPnone, hrec, hname2, ?_, ?_⟩
  · intro p2 e2 hadd2
    unfold wdAdd at hadd2
    simp only [hname2] at hadd2
    have hlk : ((wdAddRelationIdentifiers p1 r2 P).partitions).lookup P = some ring1 := by
      rw [wdAddRel_partitions]
      exact hp1look
    simp only [hlk] at hadd2
    injection hadd2 with hadd3
    rw [Prod.mk.injEq] at hadd3
    obtain ⟨hp2, -⟩ := hadd3
    refine ⟨(Hashring.Add ring1 r2 now2).1, ?_, ?_, ?_⟩
    · rw [← hp2]
      show (setAssoc (wdAddRelationIdentifiers p1 r2 P).partitions
        P (Hashring.Add ring1 r2 now2).1).lookup P = _
      rw [lookup_setAssoc, if_pos rfl]
    · exact mem_keys_Add_preserved r2 now2 hr1mem
    · exact mem_keys_Add r2 now2 hsring1
  · intro p2 ev hadd2
    unfold wdAddOrUpdate at hadd2
    simp only [hname2] at hadd2
    have hlk : ((wdAddRelationIdentifiers p1 r2 P).partitions).lookup P = some ring1 := by
      rw [wdAddRel_partitions]
      exact hp1look
    simp only [hlk] at hadd2
    injection hadd2 with hadd3
    rw [Prod.mk.injEq] at hadd3
    obtain ⟨hp2, -⟩ := hadd3
    refine ⟨(Hashring.AddOrUpdate ring1 r2 now2).1, ?_, ?_, ?_⟩
    · rw [← hp2]
      show (setAssoc (wdAddRelationIdentifiers p1 r2 P).partitions
        P (Hashring.AddOrUpdate ring1 r2 now2).1).lookup P = _
      rw [lookup_setAssoc, if_pos rfl]
    · exact mem_keys_AddOrUpdate_preserved r2 now2 hr1mem
    · exact mem_keys_AddOrUpdate r2 now2 hsring1

/-- C10: when a resource's type has no entry in the backend collection,
`BackendResources.Add` silently returns the unchanged context — no
failure value, no hashring modification, no emitted diff — even though
`Collection.Add` on the same collection reports the missing-type
error. -/
theorem backend_add_unregistered_noop (cooked : Nat → Nat) (fuel : Nat)
    (ctx : BackendResources) (r : Resource) (now : Int)
    (h : ctx.collection.lookup r.rtype = none) :
    BackendResources.Add cooked fuel ctx r now = some (ctx, [])
    ∧ Collection.Add cooked fuel ctx.collection r now
        = Except.error ("No resource type " ++ r.rtype ++ " in collection") := by
  constructor
  · unfold BackendResources.Add
    rw [h]
  · unfold Collection.Add
    rw [h]

/-- Witness: on the empty backend collection, adding the type-`"t"`
resource `rColoc1` silently succeeds while `Collection.Add` errors. -/
theorem backend_add_unregistered_noop_witness :
    BackendResources.Add cooked0 1 ⟨[], []⟩ rColoc1 0 = some (⟨[], []⟩, [])
    ∧ Collection.Add cooked0 1 [] rColoc1 0
        = Except.error "No resource type t in collection" := by
  have h := backend_add_unregistered_noop cooked0 1 ⟨[], []⟩ rColoc1 0 rfl
  exact ⟨h.1, h.2.trans (congrArg Except.error (by decide))⟩

/-! ### Closed-form evaluation of the PRNG on the seed 10

The Lehmer seeding chain is 1838 steps deep, so it is evaluated in
chunks via `Function.iterate_add_apply`; the two vector words the first
`Uint64` draw reads are then extracted with `seedVecAux_getD`. -/

theorem seedVecAux_getD (c : Nat → Nat) :
    ∀ (k j x i : Nat), j < k →
      (seedVecAux c x i k).getD j 0
        = (((seedrand (seedrand^[3 * j] x) <<< 40) % 2 ^ 64)
            ^^^ ((seedrand (seedrand (seedrand^[3 * j] x)) <<< 20) % 2 ^ 64)
            ^^^ seedrand (seedrand (seedrand (seedrand^[3 * j] x)))
            ^^^ c (i + j)) % 2 ^ 64 := by
  intro k
  induction k with
  | zero => intro j x i h; exact absurd h (Nat.not_lt_zero j)
  | succ k ih =>
    intro j x i h
    match j with
    | 0 =>
      simp [seedVecAux]
    | j + 1 =>
      have hstep := ih j (seedrand (seedrand (seedrand x))) (i + 1) (by omega)
      calc (seedVecAux c x i (k + 1)).getD (j + 1) 0
          = (seedVecAux c (seedrand (seedrand (seedrand x))) (i + 1) k).getD j 0 := by
            simp [seedVecAux]
        _ = _ := by
            rw [hstep]
            have h3 : seedrand^[3 * (j + 1)] x
                = seedrand^[3 * j] (seedrand (seedrand (seedrand x))) := by
              rw [show 3 * (j + 1) = 3 * j + 3 from by ring, Function.iterate_add_apply]
              rfl
            have hi : i + 1 + j = i + (j + 1) := by omega
            rw [h3, hi]

set_option maxRecDepth 20000 in
theorem rng10_x999 : seedrand^[999] 1430468127 = 1758066006 := by
  have h1 : seedrand^[111] 1430468127 = 610702224 := by decide
  have h2 : seedrand^[111] 610702224 = 1196755156 := by decide
  have h3 : seedrand^[111] 1196755156 = 233875798 := by decide
  have h4 : seedrand^[111] 233875798 = 1161348894 := by decide
  have h5 : seedrand^[111] 1161348894 = 1339035443 := by decide
  have h6 : seedrand^[111] 1339035443 = 69614949 := by decide
  have h7 : seedrand^[111] 69614949 = 335831265 := by decide
  have h8 : seedrand^[111] 335831265 = 356596335 := by decide
  have h9 : seedrand^[111] 356596335 = 1758066006 := by decide
  rw [show (999 : Nat)
      = 111 + (111 + (111 + (111 + (111 + (111 + (111 + (111 + 111)))))))
    from by norm_num]
  simp only [Function.iterate_add_apply]
  rw [h1, h2, h3, h4, h5, h6, h7, h8, h9]

set_option maxRecDepth 20000 in
theorem rng10_x1818 : seedrand^[1818] 1430468127 = 563590248 := by
  have g1 : seedrand^[117] 1758066006 = 1747070323 := by decide
  have g2 : seedrand^[117] 1747070323 = 1946984974 := by decide
  have g3 : seedrand^[117] 1946984974 = 1047600784 := by decide
  have g4 : seedrand^[117] 1047600784 = 874428089 := by decide
  have g5 : seedrand^[117] 874428089 = 503675616 := by decide
  have g6 : seedrand^[117] 503675616 = 1047545181 := by decide
  have g7 : seedrand^[117] 1047545181 = 563590248 := by decide
  rw [show (1818 : Nat)
      = (117 + (117 + (117 + (117 + (117 + (117 + 117)))))) + 999
    from by norm_num]
  rw [Function.iterate_add_apply, rng10_x999]
  simp only [Function.iterate_add_apply]
  rw [g1, g2, g3, g4, g5, g6, g7]

set_option maxRecDepth 20000 in
theorem rng10_v333 :
    (seedVecAux cooked0 1430468127 0 607).getD 333 0 = 18144036420345945001 := by
  rw [seedVecAux_getD cooked0 607 333 1430468127 0 (by norm_num),
    show 3 * 333 = 999 from by norm_num, rng10_x999]
  decide

set_option maxRecDepth 20000 in
theorem rng10_v606 :
    (seedVecAux cooked0 1430468127 0 607).getD 606 0 = 4203928273154957535 := by
  rw [seedVecAux_getD cooked0 607 606 1430468127 0 (by norm_num),
    show 3 * 606 = 1818 from by norm_num, rng10_x1818]
  decide

theorem rngUint64_fst_init (vec : List Nat) :
    (rngUint64 ⟨vec, 0, 334⟩).1 = (vec.getD 333 0 + vec.getD 606 0) % 2 ^ 64 := rfl

theorem goInt31n_two (s : RngState) (fuel : Nat) :
    goInt31n s 2 fuel = some (((rngUint64 s).1 % 2 ^ 63 / 2 ^ 32) &&& 1) := by
  unfold goInt31n
  rw [if_pos (show (2 : Nat) &&& (2 - 1) = 0 from by decide)]
  rfl

theorem rng10_draw : goIntn cooked0 (int64OfUid 10) 2 1 = some 1 := by
  have h0 : seedrand^[20] (seedReduce (int64OfUid 10)) = 1430468127 := by decide
  have hst : goRngSeed cooked0 (int64OfUid 10)
      = ⟨seedVecAux cooked0 1430468127 0 607, 0, 334⟩ := by
    simp only [goRngSeed, h0]
  have hu : (rngUint64 (goRngSeed cooked0 (int64OfUid 10))).1 = 3901220619791350920 := by
    rw [hst, rngUint64_fst_init, rng10_v333, rng10_v606]
    decide
  unfold goIntn
  rw [goInt31n_two, hu]
  decide

theorem stencilPQ_name :
    Stencil.GetPartitionName cooked0 1 (buildStencil [("p", 1), ("q", 1)]) 10 = some "q" := by
  have hGU : Stencil.GetUpperEnd (buildStencil [("p", 1), ("q", 1)]) = some 1 := by decide
  simp only [Stencil.GetPartitionName, hGU, show ((1 : Int) + 1).toNat = 2 from by decide,
    rng10_draw]
  decide

theorem wdName_rColoc1 :
    wdGetPartitionName cooked0 1 (newPartitionedWD [("p", 1), ("q", 1)]) rColoc1
      = some "q" := by
  unfold wdGetPartitionName
  rw [if_neg (show ¬rColoc1.distributor ≠ "" from by decide)]
  unfold phGetPartitionName
  rw [relFold_none (newPartitionedWD [("p", 1), ("q", 1)]) rColoc1.relationIds ""
    (fun rid _ => rfl), if_pos rfl]
  show Stencil.GetPartitionName cooked0 1 (buildStencil [("p", 1), ("q", 1)]) 10 = some "q"
  exact stencilPQ_name

theorem wdAdd_rColoc1 :
    wdAdd cooked0 1 (newPartitionedWD [("p", 1), ("q", 1)]) rColoc1 0
      = some (pColoc1, false) := by
  unfold wdAdd
  rw [wdName_rColoc1]
  rfl

theorem wdName_rRelX : wdGetPartitionName cooked0 1 pRel1 rRelX = some "q" := by
  unfold wdGetPartitionName
  rw [if_neg (show ¬rRelX.distributor ≠ "" from by decide)]
  unfold phGetPartitionName
  rw [relFold_none pRel1 rRelX.relationIds ""
    (by
      intro rid hrid
      have h : rid = "x" := by simpa [rRelX] using hrid
      rw [h]
      rfl), if_pos rfl]
  exact stencilPQ_name

/-- C6 (counterexample): the claim fails on a reachable partitioned
hashring whose relation table is not empty.  Starting from the fresh
`{p: 1, q: 1}` ring, adding `rRel0` (declared distributor `"p"`,
relation id `"y"`), then `rRelX` (id `"x"`, no distributor, stencil
draw `"q"` under `cooked0`), then `rRelXY` (ids `"x"` and `"y"`, no
distributor) leaves `rRelX` in partition `"q"` and `rRelXY` in
partition `"p"` — the last-match-wins relation scan routes `rRelXY` by
`"y"` — although the two share the identifier `"x"` and neither
declares a distributor. -/
theorem colocation_relation_override_counterexample :
    wdAdd cooked0 1 (newPartitionedWD [("p", 1), ("q", 1)]) rRel0 0 = some (pRel1, false)
    ∧ wdAdd cooked0 1 pRel1 rRelX 0 = some (pRel2, false)
    ∧ wdAdd cooked0 1 pRel2 rRelXY 0 = some (pRel3, false)
    ∧ rRelX.distributor = "" ∧ rRelXY.distributor = ""
    ∧ "x" ∈ rRelX.relationIds ∧ "x" ∈ rRelXY.relationIds
    ∧ pRel3.partitions.lookup "q" = some [⟨10, rRelX, 0⟩]
    ∧ pRel3.partitions.lookup "p" = some [⟨7, rRel0, 0⟩, ⟨11, rRelXY, 0⟩]
    ∧ rRelX.uid ∈ nodeKeys [⟨10, rRelX, 0⟩]
    ∧ rRelXY.uid ∈ nodeKeys [⟨7, rRel0, 0⟩, ⟨11, rRelXY, 0⟩]
    ∧ ("q" : String) ≠ "p" := by
  refine ⟨rfl, ?_, rfl, rfl, rfl, by decide, by decide, by decide, by decide,
    by decide, by decide, by decide⟩
  unfold wdAdd
  rw [wdName_rRelX]
  rfl

/-- Witness: under the sample PRNG constants `cooked0`, adding
`rColoc1` to the fresh `{p: 1, q: 1}` ring lands in a partition other
than `"none"`, records the shared identifier `"f"` there, and the
second resource `rColoc2` is routed to the same partition. -/
theorem colocation_spec_witness :
    ∃ P, wdGetPartitionName cooked0 1 (newPartitionedWD [("p", 1), ("q", 1)]) rColoc1
        = some P
      ∧ P ≠ "none"
      ∧ (∀ rid ∈ rColoc1.relationIds, pColoc1.relations.lookup rid = some P)
      ∧ wdGetPartitionName cooked0 1 pColoc1 rColoc2 = some P := by
  have h := colocation_spec cooked0 1 [("p", 1), ("q", 1)] rColoc1 rColoc2 0 0 pColoc1
    false 0 (by decide) (by decide) rfl rfl ⟨"f", by decide, by decide⟩
    (Or.inl wdAdd_rColoc1)
  obtain ⟨P, h1, h2, h3, h4, -, -⟩ := h.1
  exact ⟨P, h1, h2, h3, h4⟩

/-- Witness: the double insertion of `rUid5` into a one-node ring from
the claim-C9 statement. -/
theorem add_idempotent_witness :
    (Hashring.Add [⟨5, rUid5, 0⟩] rUid5 3).2 = true
    ∧ (nodeKeys (Hashring.Add (Hashring.Add [⟨5, rUid5, 0⟩] rUid5 3).1 rUid5 7).1).count 5
        = 1 := by
  have h := add_idempotent [⟨5, rUid5, 0⟩] rUid5 3 7 (by unfold SortedRing; decide)
  exact ⟨(h.1 (by decide)).1, h.2⟩

/-- Witness: the two `GetMany` examples of the specification on the
ring with hashkeys 2, 5, 9. -/
theorem getMany_spec_witness :
    Hashring.GetMany ring259 6 2 = some [rUid9, rUid2]
    ∧ Hashring.GetMany ring259 10 5 = some [rUid2, rUid5, rUid9] := by
  have h1 := getMany_spec ring259 6 2 (by unfold SortedRing; decide) (by decide) (by decide)
  have h2 := getMany_spec ring259 10 5 (by unfold SortedRing; decide) (by decide) (by decide)
  exact ⟨h1.1.trans (by decide), h2.1.trans (by decide)⟩

/-- Witness: replacing the stored uid-5 resource by the dysfunctional
`rDys` yields the `ResourceIsGone` event. -/
theorem addOrUpdate_spec_witness :
    (Hashring.AddOrUpdate [⟨5, rUid5, 0⟩] rDys 7).2.1 = ResourceIsGone := by
  have h := addOrUpdate_spec [⟨5, rUid5, 0⟩] rDys 7 (by unfold SortedRing; decide)
  have hf : Hashring.findUid [⟨5, rUid5, 0⟩] rDys.uid = some 0 := by decide
  exact ((h.2 0 hf).1).trans (by decide)

/-- Witness: a full update replaces the pre-existing type `"t"` of a
resource map and silently drops the fresh type `"u"`, while the same
diff applied to a collection without the type has no defined result
(the `nil`-group panic). -/
theorem applyDiff_full_update_spec_witness :
    RMap.ApplyDiff [("t", [rUid2])] ⟨[("t", [rUid5]), ("u", [rUid9])], [], [], true⟩
      = [("t", [rUid5])]
    ∧ Collection.ApplyDiff cooked0 1 [] ⟨[("t", [rUid5]), ("u", [rUid9])], [], [], true⟩ 0
      = none := by
  have h := applyDiff_full_update_spec [("t", [rUid2])]
    ⟨[("t", [rUid5]), ("u", [rUid9])], [], [], true⟩ rfl rfl rfl (by decide) (by decide)
  exact ⟨h.1.trans (by decide), h.2.1 cooked0 1 [] 0 "t" rUid5 [] (by decide) rfl⟩

/-- Witness: on the fresh `{a: 1, b: 1}` ring the partition of
`rStencil` is delegated to the stencil draw for uid 1, and the draw
agrees with the one for uid `2^31` (equal reduced seeds). -/
theorem stencil_assignment_spec_witness :
    wdGetPartitionName cooked0 1 (newPartitionedWD [("a", 1), ("b", 1)]) rStencil
      = Stencil.GetPartitionName cooked0 1 (buildStencil [("a", 1), ("b", 1)]) 1
    ∧ Stencil.GetPartitionName cooked0 1 (buildStencil [("a", 1), ("b", 1)]) 1
      = Stencil.GetPartitionName cooked0 1 (buildStencil [("a", 1), ("b", 1)]) (2 ^ 31) := by
  have h := stencil_assignment_spec cooked0 1 [("a", 1), ("b", 1)]
    (newPartitionedWD [("a", 1), ("b", 1)]) rStencil rfl (by decide) rfl (fun rid _ => rfl)
  exact ⟨h.1, h.2.2 (2 ^ 31) (by decide)⟩
